import Mathlib

/-!
Shallow embedding of the RustedBrains compiler (a toy-language → Brainfuck
transpiler) and verification of its specification claims.

Source files embedded: `src/ast.rs`, `src/codegen.rs`, `src/lexer.rs`,
`src/parser.rs`, `src/error.rs`.

Conventions:
* Rust `String` output is embedded as `List Char`.
* Rust `HashMap<String, usize>` is embedded as an association list where
  `insert` replaces an existing binding (matching `HashMap::insert`) and
  lookup returns the binding of a key if present.
* Rust `i32` is embedded as `Int` (no arithmetic in the code generator can
  overflow an `i32` for the values the claims quantify over).
-/

namespace RustedBrains

/-! ## AST (`src/ast.rs`) -/

/-- `BinaryOp` from `src/ast.rs`. -/
inductive BinaryOp where
  | add | sub | mul | div | equal | notEqual | less | greater
deriving DecidableEq, Repr

/-- `Expr` from `src/ast.rs`. -/
inductive Expr where
  | number (n : Int)
  | var (name : String)
  | binary (left : Expr) (operator : BinaryOp) (right : Expr)
deriving DecidableEq, Repr

/-- `Stmt` from `src/ast.rs`. -/
inductive Stmt where
  | letStmt (name : String) (mutable : Bool) (value : Expr)
  | assign (name : String) (value : Expr)
  | print (value : Expr)
  | ifStmt (condition : Expr) (body : List Stmt)
  | whileStmt (condition : Expr) (body : List Stmt)

/-- `Program` from `src/ast.rs` (`type Program = Vec<Stmt>`). -/
abbrev Program := List Stmt

/-! ## Errors (`src/error.rs`) -/

/-- `TranspilerError` from `src/error.rs` (message plus optional position). -/
structure TranspilerError where
  message : String
  position : Option Nat
deriving DecidableEq, Repr

/-- `TranspilerError::with_position`. -/
def TranspilerError.with_position (message : String) (position : Nat) :
    TranspilerError :=
  ⟨message, some position⟩

deriving instance DecidableEq for Except

/-! ## Code generator state (`src/codegen.rs`) -/

/-- The `variables` hash map is embedded as an association list;
`varInsert` replaces any existing binding for the key, as
`HashMap::insert` does. -/
abbrev VarMap := List (String × Nat)

/-- `HashMap::insert`: replace the binding of `name` if present, else add. -/
def varInsert (m : VarMap) (name : String) (addr : Nat) : VarMap :=
  match m with
  | [] => [(name, addr)]
  | (k, v) :: rest =>
      if k = name then (k, addr) :: rest
      else (k, v) :: varInsert rest name addr

/-- `HashMap::get`: the binding of `name`, if any. -/
def varGet (m : VarMap) (name : String) : Option Nat :=
  match m with
  | [] => none
  | (k, v) :: rest => if k = name then some v else varGet rest name

/-- The addresses bound to some name. -/
def varAddrs (m : VarMap) : List Nat := m.map Prod.snd

/-- `BrainfuckGenerator` from `src/codegen.rs`: the symbolic-tape state.
The `variables` field is named `vars` here because `variables` is a
reserved word in Lean.  Note that the source has no separate head field:
`move_to` reads and writes `memory_ptr`, the same counter
`allocate_variable` bumps. -/
structure BrainfuckGenerator where
  vars : VarMap
  memory_ptr : Nat
  output : List Char
  next_temp_addr : Nat

namespace BrainfuckGenerator

/-- `BrainfuckGenerator::new` (temps start at cell 100). -/
def new : BrainfuckGenerator :=
  { vars := [], memory_ptr := 0, output := [], next_temp_addr := 100 }

/-- `self.output.push_str(s)` / `self.output.push(c)`. -/
def pushStr (g : BrainfuckGenerator) (s : List Char) : BrainfuckGenerator :=
  { g with output := g.output ++ s }

/-- `allocate_variable`: bind `name` to the current `memory_ptr` and bump
it.  Returns the address, as the source does. -/
def allocate_variable (g : BrainfuckGenerator) (name : String) :
    Nat × BrainfuckGenerator :=
  let addr := g.memory_ptr
  (addr, { g with vars := varInsert g.vars name addr,
                  memory_ptr := g.memory_ptr + 1 })

/-- `get_temp_addr`: bump allocator for temporaries. -/
def get_temp_addr (g : BrainfuckGenerator) : Nat × BrainfuckGenerator :=
  let addr := g.next_temp_addr
  (addr, { g with next_temp_addr := g.next_temp_addr + 1 })

/-- `move_to(target)`: emit `>`/`<` repetitions relative to `memory_ptr`
and then set `memory_ptr := target`.  (In the source the same field serves
as variable allocator and head model.) -/
def move_to (g : BrainfuckGenerator) (target : Nat) : BrainfuckGenerator :=
  let g :=
    if target > g.memory_ptr then
      g.pushStr (List.replicate (target - g.memory_ptr) '>')
    else if target < g.memory_ptr then
      g.pushStr (List.replicate (g.memory_ptr - target) '<')
    else g
  { g with memory_ptr := target }

/-- `clear_cell`: emit `[-]`. -/
def clear_cell (g : BrainfuckGenerator) : BrainfuckGenerator :=
  g.pushStr ['[', '-', ']']

end BrainfuckGenerator

/-- Downward search for the integer square root: the largest `k ≤ n` with
`k * k ≤ n`. -/
def isqrtGo (n : Nat) : Nat → Nat
  | 0 => 0
  | k + 1 => if (k + 1) * (k + 1) ≤ n then k + 1 else isqrtGo n k

/-- The integer square root, by structural recursion (so that concrete
generator outputs evaluate inside the kernel); `isqrt_eq` below identifies
it with `Nat.sqrt`. -/
def isqrt (n : Nat) : Nat := isqrtGo n n

theorem isqrtGo_le (n : Nat) : ∀ k, isqrtGo n k * isqrtGo n k ≤ n
  | 0 => by simp [isqrtGo]
  | k + 1 => by
      rw [isqrtGo]
      split
      · assumption
      · exact isqrtGo_le n k

theorem le_isqrtGo (n : Nat) : ∀ k j, j ≤ k → j * j ≤ n → j ≤ isqrtGo n k
  | 0, j, hj, _ => by
      simpa [isqrtGo] using hj
  | k + 1, j, hj, hjj => by
      rw [isqrtGo]
      split
      · exact hj
      · rename_i hgt
        have hjk : j ≤ k := by
          rcases Nat.lt_or_ge j (k + 1) with h | h
          · omega
          · exact absurd (le_trans (Nat.mul_le_mul h h) hjj) hgt
        exact le_isqrtGo n k j hjk hjj

/-- `isqrt` computes `Nat.sqrt`; this is also the value of
`(n as f64).sqrt() as i32` for every nonnegative `i32` (the conversion to
`f64` is exact below `2^53` and the square root of a non-square is never
rounded up to the next integer at `f64` precision). -/
theorem isqrt_eq (n : Nat) : isqrt n = Nat.sqrt n := by
  apply Nat.le_antisymm
  · exact Nat.le_sqrt.mpr (isqrtGo_le n n)
  · have h1 : Nat.sqrt n * Nat.sqrt n ≤ n := by
      have h2 := Nat.sqrt_le' n
      simpa [pow_two] using h2
    exact le_isqrtGo n n (Nat.sqrt n) (Nat.sqrt_le_self n) h1

namespace BrainfuckGenerator

/-- `set_value(addr, value)`: move to `addr`, clear it, materialize
`value`.  For `value ≥ 10` the source computes
`loop_count = (value as f64).sqrt() as i32`, embedded as `isqrt`. -/
def set_value (g : BrainfuckGenerator) (addr : Nat) (value : Int) :
    BrainfuckGenerator :=
  let g := g.move_to addr
  let g := g.clear_cell
  if value > 0 then
    if value ≥ 10 then
      let loop_count : Nat := isqrt value.toNat
      let remainder : Nat := value.toNat - loop_count * loop_count
      let g := g.pushStr (List.replicate loop_count '+')
      let g := g.pushStr ['[']
      let g := g.move_to (addr + 1)
      let g := g.pushStr (List.replicate loop_count '+')
      let g := g.move_to addr
      let g := g.pushStr ['-', ']']
      let g := g.move_to (addr + 1)
      let g := g.pushStr ['[', '-']
      let g := g.move_to addr
      let g := g.pushStr ['+']
      let g := g.move_to (addr + 1)
      let g := g.pushStr [']']
      let g := g.move_to addr
      if remainder > 0 then g.pushStr (List.replicate remainder '+') else g
    else
      g.pushStr (List.replicate value.toNat '+')
  else if value < 0 then
    g.pushStr (List.replicate (-value).toNat '-')
  else g

/-- `copy_value(from, to)`: nondestructive copy through a fresh temp. -/
def copy_value (g : BrainfuckGenerator) (from_ to_ : Nat) :
    BrainfuckGenerator :=
  let (temp, g) := g.get_temp_addr
  let g := g.move_to to_
  let g := g.clear_cell
  let g := g.move_to temp
  let g := g.clear_cell
  let g := g.move_to from_
  let g := g.pushStr ['[', '-']
  let g := g.move_to to_
  let g := g.pushStr ['+']
  let g := g.move_to temp
  let g := g.pushStr ['+']
  let g := g.move_to from_
  let g := g.pushStr [']']
  let g := g.move_to temp
  let g := g.pushStr ['[', '-']
  let g := g.move_to from_
  let g := g.pushStr ['+']
  let g := g.move_to temp
  let g := g.pushStr [']']
  g

/-- `add_values(result, left, right)`. -/
def add_values (g : BrainfuckGenerator) (result_addr left_addr right_addr : Nat) :
    BrainfuckGenerator :=
  let g := g.copy_value left_addr result_addr
  let (temp, g) := g.get_temp_addr
  let g := g.copy_value right_addr temp
  let g := g.move_to temp
  let g := g.pushStr ['[', '-']
  let g := g.move_to result_addr
  let g := g.pushStr ['+']
  let g := g.move_to temp
  let g := g.pushStr [']']
  g

/-- `sub_values(result, left, right)`. -/
def sub_values (g : BrainfuckGenerator) (result_addr left_addr right_addr : Nat) :
    BrainfuckGenerator :=
  let g := g.copy_value left_addr result_addr
  let (temp, g) := g.get_temp_addr
  let g := g.copy_value right_addr temp
  let g := g.move_to temp
  let g := g.pushStr ['[', '-']
  let g := g.move_to result_addr
  let g := g.pushStr ['-']
  let g := g.move_to temp
  let g := g.pushStr [']']
  g

/-- `compare_equal(result, left, right)`. -/
def compare_equal (g : BrainfuckGenerator) (result_addr left_addr right_addr : Nat) :
    BrainfuckGenerator :=
  let (temp1, g) := g.get_temp_addr
  let (temp2, g) := g.get_temp_addr
  let g := g.copy_value left_addr temp1
  let g := g.copy_value right_addr temp2
  let g := g.move_to result_addr
  let g := g.clear_cell
  let g := g.pushStr ['+']
  let g := g.move_to temp2
  let g := g.pushStr ['[', '-']
  let g := g.move_to temp1
  let g := g.pushStr ['-']
  let g := g.move_to temp2
  let g := g.pushStr [']']
  let g := g.move_to temp1
  let g := g.pushStr ['[']
  let g := g.move_to result_addr
  let g := g.pushStr ['-']
  let g := g.move_to temp1
  let g := g.pushStr ['[', '-', ']', ']']
  g

/-- `evaluate_expression(expr)`: returns the address holding the value. -/
def evaluate_expression (g : BrainfuckGenerator) : Expr → Nat × BrainfuckGenerator
  | .number n =>
      let (addr, g) := g.get_temp_addr
      (addr, g.set_value addr n)
  | .var name =>
      match varGet g.vars name with
      | some addr => (addr, g)
      | none =>
          let (addr, g) := g.get_temp_addr
          (addr, g.set_value addr 0)
  | .binary left operator right =>
      let (left_addr, g) := g.evaluate_expression left
      let (right_addr, g) := g.evaluate_expression right
      let (result_addr, g) := g.get_temp_addr
      let g :=
        match operator with
        | .add => g.add_values result_addr left_addr right_addr
        | .sub => g.sub_values result_addr left_addr right_addr
        | .equal => g.compare_equal result_addr left_addr right_addr
        | .notEqual =>
            let g := g.compare_equal result_addr left_addr right_addr
            let (temp, g) := g.get_temp_addr
            let g := g.move_to temp
            let g := g.pushStr ['+']
            let g := g.move_to result_addr
            let g := g.pushStr ['[', '-']
            let g := g.move_to temp
            let g := g.pushStr ['-']
            let g := g.move_to result_addr
            let g := g.pushStr [']']
            let g := g.move_to temp
            let g := g.pushStr ['[', '-']
            let g := g.move_to result_addr
            let g := g.pushStr ['+']
            let g := g.move_to temp
            let g := g.pushStr [']']
            g
        | .less => g.copy_value left_addr result_addr
        | .greater => g.copy_value left_addr result_addr
        | .mul => g
        | .div => g
      (result_addr, g)

/-- `evaluate_condition(cond)`: direct `compare_equal` for `==`, left
operand only for `>`, otherwise `evaluate_expression`. -/
def evaluate_condition (g : BrainfuckGenerator) (condition : Expr) :
    Nat × BrainfuckGenerator :=
  match condition with
  | .binary left .equal right =>
      let (left_addr, g) := g.evaluate_expression left
      let (right_addr, g) := g.evaluate_expression right
      let (result_addr, g) := g.get_temp_addr
      (result_addr, g.compare_equal result_addr left_addr right_addr)
  | .binary left .greater _ => g.evaluate_expression left
  | _ => g.evaluate_expression condition

mutual

/-- `visit_stmt` from the `Visitor` impl in `src/codegen.rs`. -/
def visit_stmt (g : BrainfuckGenerator) : Stmt → BrainfuckGenerator
  | .letStmt name _ value =>
      let (addr, g) := g.allocate_variable name
      let (value_addr, g) := g.evaluate_expression value
      g.copy_value value_addr addr
  | .assign name value =>
      match varGet g.vars name with
      | some addr =>
          let (value_addr, g) := g.evaluate_expression value
          g.copy_value value_addr addr
      | none => g
  | .print expr =>
      let (addr, g) := g.evaluate_expression expr
      let g := g.move_to addr
      g.pushStr ['.']
  | .ifStmt condition body =>
      let (condition_addr, g) := g.evaluate_condition condition
      let g := g.move_to condition_addr
      let g := g.pushStr ['[']
      let g := visit_stmts g body
      let g := g.move_to condition_addr
      let g := g.clear_cell
      g.pushStr [']']
  | .whileStmt condition body =>
      let (condition_addr, g) := g.evaluate_condition condition
      let g := g.move_to condition_addr
      let g := g.pushStr ['[']
      let g := visit_stmts g body
      let (new_condition_addr, g) := g.evaluate_condition condition
      let g := g.copy_value new_condition_addr condition_addr
      let g := g.move_to condition_addr
      g.pushStr [']']

/-- The `for stmt in body { self.visit_stmt(stmt) }` loops. -/
def visit_stmts (g : BrainfuckGenerator) : List Stmt → BrainfuckGenerator
  | [] => g
  | s :: rest => visit_stmts (visit_stmt g s) rest

end

/-- `visit_program`. -/
def visit_program (g : BrainfuckGenerator) (program : Program) :
    BrainfuckGenerator :=
  visit_stmts g program

/-- `generate`: visit the program and return `Ok(output)`. -/
def generate (g : BrainfuckGenerator) (program : Program) :
    Except TranspilerError (List Char) × BrainfuckGenerator :=
  let g := g.visit_program program
  (.ok g.output, g)

end BrainfuckGenerator

/-- The Brainfuck text produced by one compiler invocation. -/
def genOutput (program : Program) : List Char :=
  (BrainfuckGenerator.new.visit_program program).output

/-- The generator state after one compiler invocation. -/
def genState (program : Program) : BrainfuckGenerator :=
  BrainfuckGenerator.new.visit_program program

/-! ## A canonical Brainfuck machine

The spec's target machine (§6): 8-bit cells, tape unbounded to the right,
cells start at 0, head starts at position 0.  Moving left of cell 0 is an
error (`underflow`).  Programs are modelled as instruction trees whose
rendering is the program text; executing a text means executing an
instruction tree that renders to it. -/

/-- A Brainfuck instruction; loops carry their body. -/
inductive BfInstr where
  | plus | minus | left | right | dot | comma
  | loop (body : List BfInstr)

/-- Machine state: byte tape, head position, bytes written so far. -/
structure BfState where
  tape : Nat → Fin 256
  head : Nat
  output : List (Fin 256)

/-- Pointwise tape update. -/
def tapeSet (t : Nat → Fin 256) (i : Nat) (v : Fin 256) : Nat → Fin 256 :=
  fun j => if j = i then v else t j

/-- Result of a fuel-bounded execution. -/
inductive ExecRes where
  | ok (s : BfState)
  | underflow
  | outOfFuel

/-- Execute an instruction list with the given fuel; one unit of fuel is
spent per instruction executed (and per loop-condition re-check). -/
def exec : Nat → List BfInstr → BfState → ExecRes
  | _, [], s => .ok s
  | 0, _ :: _, _ => .outOfFuel
  | fuel + 1, .plus :: rest, s =>
      exec fuel rest { s with tape := tapeSet s.tape s.head (s.tape s.head + 1) }
  | fuel + 1, .minus :: rest, s =>
      exec fuel rest { s with tape := tapeSet s.tape s.head (s.tape s.head - 1) }
  | fuel + 1, .right :: rest, s =>
      exec fuel rest { s with head := s.head + 1 }
  | fuel + 1, .left :: rest, s =>
      match s.head with
      | 0 => .underflow
      | h + 1 => exec fuel rest { s with head := h }
  | fuel + 1, .dot :: rest, s =>
      exec fuel rest { s with output := s.output ++ [s.tape s.head] }
  | fuel + 1, .comma :: rest, s =>
      -- the generator never emits `,`; model it as a no-op read of 0
      exec fuel rest { s with tape := tapeSet s.tape s.head 0 }
  | fuel + 1, .loop body :: rest, s =>
      if s.tape s.head = 0 then exec fuel rest s
      else
        match exec fuel body s with
        | .ok s1 => exec fuel (.loop body :: rest) s1
        | r => r

/-- Render an instruction tree back to program text. -/
def render : List BfInstr → List Char
  | [] => []
  | .plus :: rest => '+' :: render rest
  | .minus :: rest => '-' :: render rest
  | .left :: rest => '<' :: render rest
  | .right :: rest => '>' :: render rest
  | .dot :: rest => '.' :: render rest
  | .comma :: rest => ',' :: render rest
  | .loop body :: rest => '[' :: (render body ++ ']' :: render rest)

/-- `Runs p s t`: executing `p` from `s` terminates normally in `t`. -/
def Runs (p : List BfInstr) (s t : BfState) : Prop :=
  ∃ fuel, exec fuel p s = .ok t

/-- `StrRuns cs s t`: the program text `cs` executes from `s` to `t`
(i.e. some instruction tree rendering to `cs` does). -/
def StrRuns (cs : List Char) (s t : BfState) : Prop :=
  ∃ p, render p = cs ∧ Runs p s t

/-- Fuel-bounded parser from program text to instruction trees.  Returns
the parsed instructions together with the unconsumed remainder, which
starts at an unmatched `]` (or is empty).  Characters outside the
Brainfuck alphabet are not accepted (the generator never emits them). -/
def parseChunk : Nat → List Char → Option (List BfInstr × List Char)
  | _, [] => some ([], [])
  | 0, _ :: _ => none
  | fuel + 1, c :: rest =>
      if c = ']' then some ([], ']' :: rest)
      else if c = '[' then
        match parseChunk fuel rest with
        | some (body, ']' :: rest1) =>
            match parseChunk fuel rest1 with
            | some (tail, rem) => some (.loop body :: tail, rem)
            | none => none
        | _ => none
      else
        match parseChunk fuel rest with
        | some (tail, rem) =>
            if c = '+' then some (.plus :: tail, rem)
            else if c = '-' then some (.minus :: tail, rem)
            else if c = '<' then some (.left :: tail, rem)
            else if c = '>' then some (.right :: tail, rem)
            else if c = '.' then some (.dot :: tail, rem)
            else if c = ',' then some (.comma :: tail, rem)
            else none
        | none => none

/-- Parse a complete program text. -/
def parseBf (cs : List Char) : Option (List BfInstr) :=
  match parseChunk (cs.length + 1) cs with
  | some (p, []) => some p
  | _ => none

/-- The all-zero initial tape. -/
def zeroTape : Nat → Fin 256 := fun _ => 0

/-- The canonical initial state. -/
def initState : BfState := ⟨zeroTape, 0, []⟩

/-- Net head displacement claimed by a program text (count of `>` minus
count of `<`), i.e. the runtime head position (as an integer, possibly
negative) after executing the text on an ideal two-way-infinite tape. -/
def netMoves (cs : List Char) : Int :=
  (cs.count '>' : Int) - (cs.count '<' : Int)

/-! ## Tokens and the lexer (`src/ast.rs`, `src/lexer.rs`) -/

/-- `Token` from `src/ast.rs`. -/
inductive Token where
  | Identifier (name : String)
  | Number (n : Int)
  | Let | Mut | Print | If | While
  | Assign | Plus | Minus | Multiply | Divide
  | Equal | NotEqual | Less | Greater
  | Semicolon | LeftBrace | RightBrace | LeftParen | RightParen
  | Exclamation
  | Eof
deriving DecidableEq, Repr

/-- Rust `char::is_whitespace` (the Unicode `White_Space` property). -/
def rustIsWhitespace (c : Char) : Bool :=
  let n := c.toNat
  (9 ≤ n && n ≤ 13) || n = 32 || n = 133 || n = 160 || n = 5760 ||
    (8192 ≤ n && n ≤ 8202) || n = 8232 || n = 8233 || n = 8239 ||
    n = 8287 || n = 12288

/-- Rust `char::is_alphabetic` on the ASCII range (`A`–`Z`, `a`–`z`),
where it coincides with `Char.isAlpha`.  The Rust predicate is the full
Unicode `Alphabetic` property, so outside ASCII the two differ (the
lexer accepts any Unicode letter in identifiers); statements quantifying
over sources are therefore guarded by an ASCII-source hypothesis,
scoping them to the domain on which this embedding is exact. -/
def rustIsAlphabetic (c : Char) : Bool := c.isAlpha

/-- Rust `char::is_alphanumeric` on the ASCII range, where it coincides
with `isAlpha || isDigit`; the same ASCII scoping as for
`rustIsAlphabetic` applies. -/
def rustIsAlphanumeric (c : Char) : Bool := c.isAlpha || c.isDigit

/-- `Lexer` state from `src/lexer.rs`.  The Rust lexer keeps a one
character lookahead `current_char` plus the iterator of the remaining
input; in every reachable state `current_char` is `None` only when the
iterator is exhausted, so the pair is embedded as the single list `rest`
(= lookahead consed onto the remaining input).  `position` counts
`advance` calls, zero-based. -/
structure Lexer where
  rest : List Char
  position : Nat
deriving DecidableEq, Repr

/-- `Lexer::new`. -/
def Lexer.new (source : List Char) : Lexer := ⟨source, 0⟩

/-- The `current_char` lookahead field. -/
def Lexer.current_char (lx : Lexer) : Option Char := lx.rest.head?

/-- `advance`. -/
def Lexer.advance (lx : Lexer) : Lexer := ⟨lx.rest.tail, lx.position + 1⟩

/-- The loop of `skip_whitespace`, by structural recursion on the
remaining input (the recursive call inlines `advance`). -/
def Lexer.skipWsGo : List Char → Nat → Lexer
  | [], p => ⟨[], p⟩
  | c :: tail, p =>
      if rustIsWhitespace c then Lexer.skipWsGo tail (p + 1)
      else ⟨c :: tail, p⟩

/-- `skip_whitespace`. -/
def Lexer.skip_whitespace (lx : Lexer) : Lexer :=
  Lexer.skipWsGo lx.rest lx.position

/-- The digit-collection loop of `read_number`, by structural recursion
on the remaining input. -/
def Lexer.takeDigitsGo : List Char → Nat → List Char × Lexer
  | [], p => ([], ⟨[], p⟩)
  | c :: tail, p =>
      if c.isDigit then
        let (ds, lx1) := Lexer.takeDigitsGo tail (p + 1)
        (c :: ds, lx1)
      else ([], ⟨c :: tail, p⟩)

/-- The digit-collection loop of `read_number`: consume the maximal run
of ASCII digits. -/
def Lexer.take_digits (lx : Lexer) : List Char × Lexer :=
  Lexer.takeDigitsGo lx.rest lx.position

/-- The identifier-collection loop of `read_identifier`, by structural
recursion on the remaining input. -/
def Lexer.takeIdentGo : List Char → Nat → List Char × Lexer
  | [], p => ([], ⟨[], p⟩)
  | c :: tail, p =>
      if rustIsAlphanumeric c || c = '_' then
        let (ds, lx1) := Lexer.takeIdentGo tail (p + 1)
        (c :: ds, lx1)
      else ([], ⟨c :: tail, p⟩)

/-- The identifier-collection loop of `read_identifier`: consume the
maximal run of alphanumerics and `_`. -/
def Lexer.take_ident (lx : Lexer) : List Char × Lexer :=
  Lexer.takeIdentGo lx.rest lx.position

/-- The numeric value of a decimal digit string. -/
def digitsVal (ds : List Char) : Nat :=
  ds.foldl (fun a c => a * 10 + (c.toNat - 48)) 0

/-- `i32::MAX`. -/
def i32Max : Nat := 2147483647

/-- `read_number`: collect digits, then `parse::<i32>()`, which for a
sign-free digit string succeeds exactly when the value fits in `i32`. -/
def Lexer.read_number (lx : Lexer) :
    Except TranspilerError (Token × Lexer) :=
  let (ds, lx1) := lx.take_digits
  if digitsVal ds ≤ i32Max then
    .ok (.Number (digitsVal ds), lx1)
  else
    .error (TranspilerError.with_position
      ("Invalid number: " ++ String.mk ds) lx1.position)

/-- `read_identifier`: collect the run, then the keyword table. -/
def Lexer.read_identifier (lx : Lexer) : Token × Lexer :=
  let (ds, lx1) := lx.take_ident
  let text := String.mk ds
  let tok :=
    if text = "let" then Token.Let
    else if text = "mut" then Token.Mut
    else if text = "print" then Token.Print
    else if text = "if" then Token.If
    else if text = "while" then Token.While
    else Token.Identifier text
  (tok, lx1)

/-- `handle_equals`. -/
def Lexer.handle_equals (lx : Lexer) : Token × Lexer :=
  let lx := lx.advance
  if lx.current_char = some '=' then (.Equal, lx.advance) else (.Assign, lx)

/-- `handle_exclamation`. -/
def Lexer.handle_exclamation (lx : Lexer) : Token × Lexer :=
  let lx := lx.advance
  if lx.current_char = some '=' then (.NotEqual, lx.advance)
  else (.Exclamation, lx)

/-- The single-character operator and delimiter tokens of the lexer's
dispatch. -/
def singleCharToken (c : Char) : Option Token :=
  if c = '+' then some .Plus
  else if c = '-' then some .Minus
  else if c = '<' then some .Less
  else if c = '>' then some .Greater
  else if c = ';' then some .Semicolon
  else if c = '{' then some .LeftBrace
  else if c = '}' then some .RightBrace
  else if c = '(' then some .LeftParen
  else if c = ')' then some .RightParen
  else none

/-- `next_token`: skip whitespace and dispatch on the current character,
in the source's match order. -/
def Lexer.next_token (lx : Lexer) :
    Except TranspilerError (Option Token × Lexer) :=
  let lx := lx.skip_whitespace
  match lx.current_char with
  | none => .ok (some .Eof, lx)
  | some ch =>
      if ch = '=' then
        let (t, lx1) := lx.handle_equals
        .ok (some t, lx1)
      else if ch = '!' then
        let (t, lx1) := lx.handle_exclamation
        .ok (some t, lx1)
      else
        match singleCharToken ch with
        | some t => .ok (some t, lx.advance)
        | none =>
            if ch.isDigit then
              match lx.read_number with
              | .ok (t, lx1) => .ok (some t, lx1)
              | .error e => .error e
            else if rustIsAlphabetic ch || ch = '_' then
              let (t, lx1) := lx.read_identifier
              .ok (some t, lx1)
            else
              .error (TranspilerError.with_position
                ("Unexpected character: '" ++ String.mk [ch] ++ "'")
                lx.position)

theorem Lexer.len_skipWsGo :
    ∀ (r : List Char) (p : Nat),
      (Lexer.skipWsGo r p).rest.length ≤ r.length := by
  intro r
  induction r with
  | nil => intro p; simp [Lexer.skipWsGo]
  | cons c tail ih =>
      intro p
      rw [Lexer.skipWsGo]
      split
      · exact le_trans (ih (p + 1)) (Nat.le_succ _)
      · exact le_refl _

theorem Lexer.len_skip_whitespace :
    ∀ (r : List Char) (p : Nat),
      (Lexer.skip_whitespace ⟨r, p⟩).rest.length ≤ r.length :=
  fun r p => Lexer.len_skipWsGo r p

theorem Lexer.len_takeDigitsGo :
    ∀ (r : List Char) (p : Nat),
      (Lexer.takeDigitsGo r p).2.rest.length ≤ r.length := by
  intro r
  induction r with
  | nil => intro p; simp [Lexer.takeDigitsGo]
  | cons c tail ih =>
      intro p
      rw [Lexer.takeDigitsGo]
      split
      · exact le_trans (ih (p + 1)) (Nat.le_succ _)
      · exact le_refl _

theorem Lexer.len_take_digits :
    ∀ (r : List Char) (p : Nat),
      (Lexer.take_digits ⟨r, p⟩).2.rest.length ≤ r.length :=
  fun r p => Lexer.len_takeDigitsGo r p

theorem Lexer.len_takeIdentGo :
    ∀ (r : List Char) (p : Nat),
      (Lexer.takeIdentGo r p).2.rest.length ≤ r.length := by
  intro r
  induction r with
  | nil => intro p; simp [Lexer.takeIdentGo]
  | cons c tail ih =>
      intro p
      rw [Lexer.takeIdentGo]
      split
      · exact le_trans (ih (p + 1)) (Nat.le_succ _)
      · exact le_refl _

theorem Lexer.len_take_ident :
    ∀ (r : List Char) (p : Nat),
      (Lexer.take_ident ⟨r, p⟩).2.rest.length ≤ r.length :=
  fun r p => Lexer.len_takeIdentGo r p

/-- Every successfully produced non-`Eof` token consumes at least one
character, so the tokenize loop terminates. -/
theorem Lexer.len_next_token (lx lx1 : Lexer) (tok : Token)
    (h : lx.next_token = .ok (some tok, lx1)) (htok : tok ≠ .Eof) :
    lx1.rest.length < lx.rest.length := by
  obtain ⟨r, p⟩ := lx
  show lx1.rest.length < r.length
  have hle := Lexer.len_skip_whitespace r p
  rw [Lexer.next_token] at h
  simp only at h
  rcases hs : Lexer.skip_whitespace ⟨r, p⟩ with ⟨rs, ps⟩
  rw [hs] at h hle
  simp only at hle
  cases rs with
  | nil =>
      simp only [Lexer.current_char, List.head?_nil, Except.ok.injEq,
        Prod.mk.injEq, Option.some.injEq] at h
      exact absurd h.1.symm htok
  | cons c tail =>
      simp only [Lexer.current_char, List.head?_cons] at h
      simp only [List.length_cons] at hle
      by_cases h1 : c = '='
      · rw [if_pos h1] at h
        simp only [Lexer.handle_equals, Lexer.advance, Lexer.current_char,
          List.tail_cons] at h
        split at h <;>
          simp only [Except.ok.injEq, Prod.mk.injEq, Option.some.injEq] at h <;>
          rw [← h.2] <;> simp only [List.length_tail] <;> omega
      · rw [if_neg h1] at h
        by_cases h2 : c = '!'
        · rw [if_pos h2] at h
          simp only [Lexer.handle_exclamation, Lexer.advance,
            Lexer.current_char, List.tail_cons] at h
          split at h <;>
            simp only [Except.ok.injEq, Prod.mk.injEq, Option.some.injEq] at h <;>
            rw [← h.2] <;> simp only [List.length_tail] <;> omega
        · rw [if_neg h2] at h
          rcases hsct : singleCharToken c with _ | t
          · rw [hsct] at h
            by_cases hd : c.isDigit
            · rw [if_pos hd] at h
              have htd : (Lexer.take_digits ⟨c :: tail, ps⟩).2
                  = (Lexer.take_digits ⟨tail, ps + 1⟩).2 := by
                show (Lexer.takeDigitsGo (c :: tail) ps).2
                    = (Lexer.takeDigitsGo tail (ps + 1)).2
                rw [Lexer.takeDigitsGo]
                simp [hd]
              have hlen := Lexer.len_take_digits tail (ps + 1)
              rcases htdeq : Lexer.take_digits ⟨c :: tail, ps⟩ with ⟨ds, lxa⟩
              rw [htdeq] at htd
              unfold Lexer.read_number at h
              rw [htdeq] at h
              simp only at h
              split at h
              · rename_i t2 lx2 heq
                simp only [Except.ok.injEq, Prod.mk.injEq,
                  Option.some.injEq] at h
                split at heq
                · simp only [Except.ok.injEq, Prod.mk.injEq] at heq
                  simp only at htd
                  rw [← h.2, ← heq.2, htd]
                  omega
                · cases heq
              · simp at h
            · rw [if_neg hd] at h
              by_cases hid : (rustIsAlphabetic c || c = '_') = true
              · rw [if_pos hid] at h
                have hti : (Lexer.take_ident ⟨c :: tail, ps⟩).2
                    = (Lexer.take_ident ⟨tail, ps + 1⟩).2 := by
                  show (Lexer.takeIdentGo (c :: tail) ps).2
                      = (Lexer.takeIdentGo tail (ps + 1)).2
                  rw [Lexer.takeIdentGo]
                  have hb : (rustIsAlphanumeric c || c = '_') = true := by
                    simp only [rustIsAlphabetic, Bool.or_eq_true,
                      decide_eq_true_eq] at hid
                    simp only [rustIsAlphanumeric, Bool.or_eq_true,
                      decide_eq_true_eq]
                    tauto
                  simp [hb]
                have hlen := Lexer.len_take_ident tail (ps + 1)
                rcases htieq : Lexer.take_ident ⟨c :: tail, ps⟩ with ⟨ds, lxa⟩
                rw [htieq] at hti
                unfold Lexer.read_identifier at h
                rw [htieq] at h
                simp only [Except.ok.injEq, Prod.mk.injEq,
                  Option.some.injEq] at h
                rw [← h.2]
                simp only at hti
                rw [hti]
                omega
              · rw [if_neg hid] at h
                cases h
          · rw [hsct] at h
            simp only [Lexer.advance, List.tail_cons, Except.ok.injEq,
              Prod.mk.injEq, Option.some.injEq] at h
            rw [← h.2]
            simp only
            omega

/-- The `while let Some(token) = self.next_token()?` loop of `tokenize`,
with the trailing `tokens.push(Token::Eof)`. -/
def Lexer.tokenize_loop (lx : Lexer) (acc : List Token) :
    Except TranspilerError (List Token) :=
  match h : lx.next_token with
  | .error e => .error e
  | .ok (some tok, lx1) =>
      if htok : tok = .Eof then .ok (acc ++ [.Eof])
      else Lexer.tokenize_loop lx1 (acc ++ [tok])
  | .ok (none, _) => .ok (acc ++ [.Eof])
termination_by lx.rest.length
decreasing_by exact Lexer.len_next_token lx lx1 tok h htok

/-- `Lexer::tokenize` on a source text. -/
def tokenize (source : List Char) : Except TranspilerError (List Token) :=
  Lexer.tokenize_loop (Lexer.new source) []

/-! ## The parser (`src/parser.rs`)

The recursive-descent functions are embedded with an explicit fuel
argument (the Rust functions terminate by consuming tokens; fuel at least
`2 * tokens.length + 2` is always enough, and the claims use the parser
only on concrete inputs). -/

/-- `Parser` state: the token vector and the cursor. -/
structure Parser where
  tokens : List Token
  current : Nat
deriving DecidableEq, Repr

/-- `std::mem::discriminant` on `Token`: the variant tag, ignoring
payloads. -/
def tokDisc : Token → Nat
  | .Identifier _ => 0
  | .Number _ => 1
  | .Let => 2
  | .Mut => 3
  | .Print => 4
  | .If => 5
  | .While => 6
  | .Assign => 7
  | .Plus => 8
  | .Minus => 9
  | .Multiply => 10
  | .Divide => 11
  | .Equal => 12
  | .NotEqual => 13
  | .Less => 14
  | .Greater => 15
  | .Semicolon => 16
  | .LeftBrace => 17
  | .RightBrace => 18
  | .LeftParen => 19
  | .RightParen => 20
  | .Exclamation => 21
  | .Eof => 22

/-- The `{:?}` (Debug) rendering of a token, used in parse-error
messages. -/
def tokenDebug : Token → String
  | .Identifier name => "Identifier(\"" ++ name ++ "\")"
  | .Number n => "Number(" ++ toString n ++ ")"
  | .Let => "Let"
  | .Mut => "Mut"
  | .Print => "Print"
  | .If => "If"
  | .While => "While"
  | .Assign => "Assign"
  | .Plus => "Plus"
  | .Minus => "Minus"
  | .Multiply => "Multiply"
  | .Divide => "Divide"
  | .Equal => "Equal"
  | .NotEqual => "NotEqual"
  | .Less => "Less"
  | .Greater => "Greater"
  | .Semicolon => "Semicolon"
  | .LeftBrace => "LeftBrace"
  | .RightBrace => "RightBrace"
  | .LeftParen => "LeftParen"
  | .RightParen => "RightParen"
  | .Exclamation => "Exclamation"
  | .Eof => "Eof"

namespace Parser

/-- `is_at_end`. -/
def is_at_end (p : Parser) : Bool := p.tokens.length ≤ p.current

/-- `peek` (out-of-range reads default to `Eof`, as `unwrap_or`). -/
def peek (p : Parser) : Token := (p.tokens.get? p.current).getD .Eof

/-- `advance`: bump the cursor unless at the end, return the token before
the new cursor. -/
def advance (p : Parser) : Token × Parser :=
  let p1 := if ¬p.is_at_end then { p with current := p.current + 1 } else p
  ((p1.tokens.get? (p1.current - 1)).getD .Eof, p1)

/-- `consume`: match on `std::mem::discriminant`. -/
def consume (p : Parser) (expected : Token) (message : String) :
    Except TranspilerError Parser :=
  if tokDisc p.peek = tokDisc expected then .ok (p.advance).2
  else .error (TranspilerError.with_position
    (message ++ ", got " ++ tokenDebug p.peek) p.current)

/-- `consume_if_present`. -/
def consume_if_present (p : Parser) (token : Token) : Parser :=
  if tokDisc p.peek = tokDisc token then (p.advance).2 else p

/-- `consume_identifier`. -/
def consume_identifier (p : Parser) (message : String) :
    Except TranspilerError (String × Parser) :=
  match p.peek with
  | .Identifier name => .ok (name, (p.advance).2)
  | _ => .error (TranspilerError.with_position message p.current)

/-- Sentinel for fuel exhaustion; unreachable for sufficient fuel. -/
def fuelErr : TranspilerError := ⟨"fuel exhausted", none⟩

mutual

/-- `expression`. -/
def expression : Nat → Parser → Except TranspilerError (Expr × Parser)
  | 0, _ => .error fuelErr
  | fuel + 1, p => equality fuel p

/-- `equality`. -/
def equality : Nat → Parser → Except TranspilerError (Expr × Parser)
  | 0, _ => .error fuelErr
  | fuel + 1, p =>
      match comparison fuel p with
      | .error e => .error e
      | .ok (expr, p) => equalityLoop fuel expr p

/-- The `while matches!(self.peek(), Equal | NotEqual)` loop of
`equality`. -/
def equalityLoop : Nat → Expr → Parser → Except TranspilerError (Expr × Parser)
  | 0, _, _ => .error fuelErr
  | fuel + 1, expr, p =>
      if p.peek = .Equal || p.peek = .NotEqual then
        let (tk, p) := p.advance
        let op : BinaryOp := if tk = .Equal then .equal else .notEqual
        match comparison fuel p with
        | .error e => .error e
        | .ok (right, p) => equalityLoop fuel (.binary expr op right) p
      else .ok (expr, p)

/-- `comparison`. -/
def comparison : Nat → Parser → Except TranspilerError (Expr × Parser)
  | 0, _ => .error fuelErr
  | fuel + 1, p =>
      match term fuel p with
      | .error e => .error e
      | .ok (expr, p) => comparisonLoop fuel expr p

/-- The `while matches!(self.peek(), Less | Greater)` loop of
`comparison`. -/
def comparisonLoop : Nat → Expr → Parser → Except TranspilerError (Expr × Parser)
  | 0, _, _ => .error fuelErr
  | fuel + 1, expr, p =>
      if p.peek = .Less || p.peek = .Greater then
        let (tk, p) := p.advance
        let op : BinaryOp := if tk = .Less then .less else .greater
        match term fuel p with
        | .error e => .error e
        | .ok (right, p) => comparisonLoop fuel (.binary expr op right) p
      else .ok (expr, p)

/-- `term`. -/
def term : Nat → Parser → Except TranspilerError (Expr × Parser)
  | 0, _ => .error fuelErr
  | fuel + 1, p =>
      match factor fuel p with
      | .error e => .error e
      | .ok (expr, p) => termLoop fuel expr p

/-- The `while matches!(self.peek(), Plus | Minus)` loop of `term`. -/
def termLoop : Nat → Expr → Parser → Except TranspilerError (Expr × Parser)
  | 0, _, _ => .error fuelErr
  | fuel + 1, expr, p =>
      if p.peek = .Plus || p.peek = .Minus then
        let (tk, p) := p.advance
        let op : BinaryOp := if tk = .Plus then .add else .sub
        match factor fuel p with
        | .error e => .error e
        | .ok (right, p) => termLoop fuel (.binary expr op right) p
      else .ok (expr, p)

/-- `factor`. -/
def factor : Nat → Parser → Except TranspilerError (Expr × Parser)
  | 0, _ => .error fuelErr
  | fuel + 1, p =>
      match primary fuel p with
      | .error e => .error e
      | .ok (expr, p) => factorLoop fuel expr p

/-- The `while matches!(self.peek(), Multiply | Divide)` loop of
`factor`. -/
def factorLoop : Nat → Expr → Parser → Except TranspilerError (Expr × Parser)
  | 0, _, _ => .error fuelErr
  | fuel + 1, expr, p =>
      if p.peek = .Multiply || p.peek = .Divide then
        let (tk, p) := p.advance
        let op : BinaryOp := if tk = .Multiply then .mul else .div
        match primary fuel p with
        | .error e => .error e
        | .ok (right, p) => factorLoop fuel (.binary expr op right) p
      else .ok (expr, p)

/-- `primary`. -/
def primary : Nat → Parser → Except TranspilerError (Expr × Parser)
  | 0, _ => .error fuelErr
  | fuel + 1, p =>
      match p.peek with
      | .Number n => .ok (.number n, (p.advance).2)
      | .Identifier name => .ok (.var name, (p.advance).2)
      | .LeftParen =>
          let p := (p.advance).2
          match expression fuel p with
          | .error e => .error e
          | .ok (expr, p) =>
              match p.consume .RightParen ("Expected ')' after expression") with
              | .error e => .error e
              | .ok p => .ok (expr, p)
      | _ => .error (TranspilerError.with_position
          ("Unexpected token in expression: " ++ tokenDebug p.peek) p.current)

end

end Parser

/-! ## Execution lemmas: fuel stability, determinism, composition -/

theorem exec_mono : ∀ (n k : Nat) (p : List BfInstr) (s : BfState) (r : ExecRes),
    exec n p s = r → r ≠ .outOfFuel → exec (n + k) p s = r := by
  intro n
  induction n with
  | zero =>
      intro k p s r h hr
      cases p with
      | nil => simpa [exec] using h
      | cons i rest =>
          rw [exec] at h
          exact absurd h.symm hr
  | succ n ih =>
      intro k p s r h hr
      cases p with
      | nil => simpa [exec] using h
      | cons i rest =>
          have hsadd : n + 1 + k = (n + k) + 1 := by omega
          cases i with
          | plus => rw [exec] at h; rw [hsadd, exec]; exact ih k _ _ _ h hr
          | minus => rw [exec] at h; rw [hsadd, exec]; exact ih k _ _ _ h hr
          | right => rw [exec] at h; rw [hsadd, exec]; exact ih k _ _ _ h hr
          | dot => rw [exec] at h; rw [hsadd, exec]; exact ih k _ _ _ h hr
          | comma => rw [exec] at h; rw [hsadd, exec]; exact ih k _ _ _ h hr
          | left =>
              rw [exec] at h; rw [hsadd, exec]
              cases hh : s.head with
              | zero => rw [hh] at h; simpa using h
              | succ m => rw [hh] at h; exact ih k _ _ _ h hr
          | loop body =>
              rw [exec] at h; rw [hsadd, exec]
              by_cases hz : s.tape s.head = 0
              · rw [if_pos hz] at h
                rw [if_pos hz]
                exact ih k _ _ _ h hr
              · rw [if_neg hz] at h
                rw [if_neg hz]
                rcases hb : exec n body s with s1 | _ | _
                · rw [hb] at h
                  rw [ih k _ _ _ hb (by simp)]
                  exact ih k _ _ _ h hr
                · rw [hb] at h
                  rw [ih k _ _ _ hb (by simp)]
                  exact h
                · rw [hb] at h
                  exact absurd h.symm hr

theorem exec_det {n m : Nat} {p : List BfInstr} {s : BfState} {t t1 : BfState}
    (h1 : exec n p s = .ok t) (h2 : exec m p s = .ok t1) : t = t1 := by
  have e1 := exec_mono n m p s _ h1 (by simp)
  have e2 := exec_mono m n p s _ h2 (by simp)
  rw [Nat.add_comm m n] at e2
  rw [e1] at e2
  exact (ExecRes.ok.injEq .. ▸ e2).symm ▸ rfl

theorem Runs.det {p : List BfInstr} {s t t1 : BfState}
    (h1 : Runs p s t) (h2 : Runs p s t1) : t = t1 := by
  obtain ⟨n, hn⟩ := h1
  obtain ⟨m, hm⟩ := h2
  exact exec_det hn hm

theorem runs_append : ∀ (n : Nat) (a : List BfInstr) (s t : BfState),
    exec n a s = .ok t → ∀ (b : List BfInstr) (u : BfState),
    Runs b t u → Runs (a ++ b) s u := by
  intro n
  induction n with
  | zero =>
      intro a s t h b u hb
      cases a with
      | nil =>
          rw [exec] at h
          cases h
          simpa using hb
      | cons i rest => rw [exec] at h; cases h
  | succ n ih =>
      intro a s t h b u hb
      cases a with
      | nil =>
          rw [exec] at h
          cases h
          simpa using hb
      | cons i rest =>
          cases i with
          | plus =>
              rw [exec] at h
              obtain ⟨k, hk⟩ := ih rest _ t h b u hb
              exact ⟨k + 1, by rw [List.cons_append, exec]; exact hk⟩
          | minus =>
              rw [exec] at h
              obtain ⟨k, hk⟩ := ih rest _ t h b u hb
              exact ⟨k + 1, by rw [List.cons_append, exec]; exact hk⟩
          | right =>
              rw [exec] at h
              obtain ⟨k, hk⟩ := ih rest _ t h b u hb
              exact ⟨k + 1, by rw [List.cons_append, exec]; exact hk⟩
          | dot =>
              rw [exec] at h
              obtain ⟨k, hk⟩ := ih rest _ t h b u hb
              exact ⟨k + 1, by rw [List.cons_append, exec]; exact hk⟩
          | comma =>
              rw [exec] at h
              obtain ⟨k, hk⟩ := ih rest _ t h b u hb
              exact ⟨k + 1, by rw [List.cons_append, exec]; exact hk⟩
          | left =>
              rw [exec] at h
              cases hh : s.head with
              | zero => rw [hh] at h; cases h
              | succ m =>
                  rw [hh] at h
                  obtain ⟨k, hk⟩ := ih rest _ t h b u hb
                  exact ⟨k + 1, by rw [List.cons_append, exec, hh]; exact hk⟩
          | loop body =>
              rw [exec] at h
              by_cases hz : s.tape s.head = 0
              · rw [if_pos hz] at h
                obtain ⟨k, hk⟩ := ih rest _ t h b u hb
                exact ⟨k + 1, by rw [List.cons_append, exec, if_pos hz]; exact hk⟩
              · rw [if_neg hz] at h
                rcases hbody : exec n body s with s1 | _ | _
                · rw [hbody] at h
                  obtain ⟨k, hk⟩ := ih (.loop body :: rest) s1 t h b u hb
                  rw [List.cons_append] at hk
                  have hbK := exec_mono n k body s _ hbody (by simp)
                  have hkK := exec_mono k n (.loop body :: (rest ++ b)) s1 _ hk (by simp)
                  rw [Nat.add_comm k n] at hkK
                  refine ⟨n + k + 1, ?_⟩
                  rw [List.cons_append, exec, if_neg hz, hbK]
                  exact hkK
                · rw [hbody] at h; cases h
                · rw [hbody] at h; cases h

theorem Runs.append {a b : List BfInstr} {s t u : BfState}
    (h1 : Runs a s t) (h2 : Runs b t u) : Runs (a ++ b) s u := by
  obtain ⟨n, hn⟩ := h1
  exact runs_append n a s t hn b u h2

theorem runs_nil (s : BfState) : Runs [] s s := ⟨0, rfl⟩

theorem runs_plus {p : List BfInstr} {s : BfState} {t : BfState}
    (h : Runs p { s with tape := tapeSet s.tape s.head (s.tape s.head + 1) } t) :
    Runs (.plus :: p) s t := by
  obtain ⟨n, hn⟩ := h
  exact ⟨n + 1, by rw [exec]; exact hn⟩

theorem runs_minus {p : List BfInstr} {s : BfState} {t : BfState}
    (h : Runs p { s with tape := tapeSet s.tape s.head (s.tape s.head - 1) } t) :
    Runs (.minus :: p) s t := by
  obtain ⟨n, hn⟩ := h
  exact ⟨n + 1, by rw [exec]; exact hn⟩

theorem runs_right {p : List BfInstr} {s : BfState} {t : BfState}
    (h : Runs p { s with head := s.head + 1 } t) :
    Runs (.right :: p) s t := by
  obtain ⟨n, hn⟩ := h
  exact ⟨n + 1, by rw [exec]; exact hn⟩

theorem runs_left {p : List BfInstr} {s : BfState} {t : BfState} {m : Nat}
    (hh : s.head = m + 1) (h : Runs p { s with head := m } t) :
    Runs (.left :: p) s t := by
  obtain ⟨n, hn⟩ := h
  exact ⟨n + 1, by rw [exec, hh]; exact hn⟩

theorem runs_dot {p : List BfInstr} {s : BfState} {t : BfState}
    (h : Runs p { s with output := s.output ++ [s.tape s.head] } t) :
    Runs (.dot :: p) s t := by
  obtain ⟨n, hn⟩ := h
  exact ⟨n + 1, by rw [exec]; exact hn⟩

theorem runs_loop_exit {body p : List BfInstr} {s t : BfState}
    (hz : s.tape s.head = 0) (h : Runs p s t) :
    Runs (.loop body :: p) s t := by
  obtain ⟨n, hn⟩ := h
  exact ⟨n + 1, by rw [exec, if_pos hz]; exact hn⟩

theorem runs_loop_iter {body p : List BfInstr} {s s1 t : BfState}
    (hz : s.tape s.head ≠ 0) (hbody : Runs body s s1)
    (h : Runs (.loop body :: p) s1 t) :
    Runs (.loop body :: p) s t := by
  obtain ⟨n, hn⟩ := hbody
  obtain ⟨m, hm⟩ := h
  have hb := exec_mono n m body s _ hn (by simp)
  have hl := exec_mono m n (.loop body :: p) s1 _ hm (by simp)
  rw [Nat.add_comm m n] at hl
  exact ⟨n + m + 1, by rw [exec, if_neg hz, hb]; exact hl⟩

/-! ## Tape algebra and rendering lemmas -/

theorem tapeSet_read_same (t : Nat → Fin 256) (i : Nat) (v : Fin 256) :
    tapeSet t i v i = v := by simp [tapeSet]

theorem tapeSet_read_other (t : Nat → Fin 256) (i j : Nat) (v : Fin 256)
    (h : j ≠ i) : tapeSet t i v j = t j := by simp [tapeSet, h]

theorem tapeSet_overwrite (t : Nat → Fin 256) (i : Nat) (a b : Fin 256) :
    tapeSet (tapeSet t i a) i b = tapeSet t i b := by
  funext j
  by_cases h : j = i <;> simp [tapeSet, h]

theorem tapeSet_id (t : Nat → Fin 256) (i : Nat) :
    tapeSet t i (t i) = t := by
  funext j
  by_cases h : j = i <;> simp [tapeSet, h]

theorem tapeSet_comm (t : Nat → Fin 256) (i j : Nat) (a b : Fin 256)
    (h : i ≠ j) : tapeSet (tapeSet t i a) j b = tapeSet (tapeSet t j b) i a := by
  funext k
  by_cases hk : k = j <;> by_cases hk2 : k = i <;>
    simp_all [tapeSet]

theorem render_append (a b : List BfInstr) :
    render (a ++ b) = render a ++ render b := by
  induction a with
  | nil => simp [render]
  | cons i rest ih =>
      cases i <;> simp [render, ih]

theorem render_replicate_right (k : Nat) :
    render (List.replicate k .right) = List.replicate k '>' := by
  induction k with
  | zero => simp [render]
  | succ k ih => simp [List.replicate_succ, render, ih]

theorem render_replicate_left (k : Nat) :
    render (List.replicate k .left) = List.replicate k '<' := by
  induction k with
  | zero => simp [render]
  | succ k ih => simp [List.replicate_succ, render, ih]

theorem render_replicate_plus (k : Nat) :
    render (List.replicate k .plus) = List.replicate k '+' := by
  induction k with
  | zero => simp [render]
  | succ k ih => simp [List.replicate_succ, render, ih]

theorem render_replicate_minus (k : Nat) :
    render (List.replicate k .minus) = List.replicate k '-' := by
  induction k with
  | zero => simp [render]
  | succ k ih => simp [List.replicate_succ, render, ih]

/-- The instruction sequence whose rendering `move_to` emits when the
model head is `m` and the target is `t`. -/
def moveInstrs (m t : Nat) : List BfInstr :=
  if t > m then List.replicate (t - m) .right
  else if t < m then List.replicate (m - t) .left
  else []

/-- `move_to` appends exactly the rendering of `moveInstrs` and sets the
model head; no other field changes. -/
theorem move_to_eq (g : BrainfuckGenerator) (t : Nat) :
    g.move_to t = { g with output := g.output ++ render (moveInstrs g.memory_ptr t),
                           memory_ptr := t } := by
  unfold BrainfuckGenerator.move_to moveInstrs BrainfuckGenerator.pushStr
  by_cases h1 : t > g.memory_ptr
  · simp [h1, render_replicate_right]
  · by_cases h2 : t < g.memory_ptr
    · simp [h1, h2, render_replicate_left]
    · simp [h1, h2, render]

theorem runs_rights (k : Nat) (t : Nat → Fin 256) (h : Nat) (o : List (Fin 256)) :
    Runs (List.replicate k .right) ⟨t, h, o⟩ ⟨t, h + k, o⟩ := by
  induction k generalizing h with
  | zero => simpa using runs_nil _
  | succ k ih =>
      rw [List.replicate_succ]
      refine runs_right ?_
      have := ih (h + 1)
      simpa [Nat.add_comm, Nat.add_assoc, Nat.add_left_comm] using this

theorem runs_lefts (k : Nat) (t : Nat → Fin 256) (h : Nat) (o : List (Fin 256))
    (hk : k ≤ h) : Runs (List.replicate k .left) ⟨t, h, o⟩ ⟨t, h - k, o⟩ := by
  induction k generalizing h with
  | zero => simpa using runs_nil _
  | succ k ih =>
      rw [List.replicate_succ]
      have hpos : h = (h - 1) + 1 := by omega
      refine runs_left (show (⟨t, h, o⟩ : BfState).head = (h - 1) + 1 from by
        simpa using hpos) ?_
      have := ih (h - 1) (by omega)
      have harith : h - 1 - k = h - (k + 1) := by omega
      simpa [harith] using this

theorem runs_move (m n : Nat) (t : Nat → Fin 256) (o : List (Fin 256)) :
    Runs (moveInstrs m n) ⟨t, m, o⟩ ⟨t, n, o⟩ := by
  unfold moveInstrs
  by_cases h1 : n > m
  · rw [if_pos h1]
    have := runs_rights (n - m) t m o
    have harith : m + (n - m) = n := by omega
    rwa [harith] at this
  · rw [if_neg h1]
    by_cases h2 : n < m
    · rw [if_pos h2]
      have := runs_lefts (m - n) t m o (by omega)
      have harith : m - (m - n) = n := by omega
      rwa [harith] at this
    · rw [if_neg h2]
      have hmn : m = n := by omega
      subst hmn
      exact runs_nil _

theorem runs_plusses (q : Nat) (t : Nat → Fin 256) (h : Nat) (o : List (Fin 256)) :
    Runs (List.replicate q .plus) ⟨t, h, o⟩
      ⟨tapeSet t h (t h + (q : Fin 256)), h, o⟩ := by
  induction q generalizing t with
  | zero =>
      have : tapeSet t h (t h + ((0 : Nat) : Fin 256)) = t := by
        simp [tapeSet_id]
      rw [this]
      simpa using runs_nil _
  | succ q ih =>
      rw [List.replicate_succ]
      refine runs_plus ?_
      have := ih (tapeSet t h (t h + 1))
      have harith : tapeSet (tapeSet t h (t h + 1)) h
          (tapeSet t h (t h + 1) h + (q : Fin 256))
          = tapeSet t h (t h + ((q + 1 : Nat) : Fin 256)) := by
        rw [tapeSet_read_same, tapeSet_overwrite]
        push_cast
        ring_nf
      rw [harith] at this
      simpa using this

/-! ## Loop idiom lemmas -/

theorem fin_pred_val (a : Fin 256) (n : Nat) (h : a.val = n + 1) :
    (a - 1).val = n := by
  have hne : a ≠ 0 := by
    intro h0
    rw [h0] at h
    simp at h
  rw [Fin.coe_sub_one, if_neg hne]
  omega

theorem fin_ne_zero_of_val (a : Fin 256) (n : Nat) (h : a.val = n + 1) :
    a ≠ 0 := by
  intro h0
  rw [h0] at h
  simp at h

/-- The `[-]` clear idiom zeroes the current cell. -/
theorem runs_clear : ∀ (n : Nat) (t : Nat → Fin 256) (h : Nat)
    (o : List (Fin 256)), (t h).val = n →
    Runs [.loop [.minus]] ⟨t, h, o⟩ ⟨tapeSet t h 0, h, o⟩ := by
  intro n
  induction n with
  | zero =>
      intro t h o hv
      have hz : t h = 0 := by
        apply Fin.ext
        simpa using hv
      have ht : tapeSet t h 0 = t := by rw [← hz, tapeSet_id]
      rw [ht]
      exact runs_loop_exit (by simpa using hz) (runs_nil _)
  | succ n ih =>
      intro t h o hv
      refine runs_loop_iter (by simpa using fin_ne_zero_of_val _ _ hv)
        (runs_minus (p := []) (runs_nil _)) ?_
      have hpred : ((tapeSet t h (t h - 1)) h).val = n := by
        rw [tapeSet_read_same]
        exact fin_pred_val _ _ hv
      have := ih (tapeSet t h (t h - 1)) h o hpred
      rwa [tapeSet_overwrite] at this

/-- Body of the minus-first transfer loop `[- →dst +^q →src ]`. -/
def drainBody (src dst : Nat) (q : Nat) : List BfInstr :=
  .minus :: (moveInstrs src dst ++ List.replicate q .plus ++ moveInstrs dst src)

/-- The minus-first transfer loop drains `src` to zero, adding `q` to
`dst` per unit drained. -/
theorem runs_drain (src dst q : Nat) (hne : src ≠ dst) :
    ∀ (n : Nat) (t : Nat → Fin 256) (o : List (Fin 256)), (t src).val = n →
    Runs [.loop (drainBody src dst q)] ⟨t, src, o⟩
      ⟨tapeSet (tapeSet t dst (t dst + ((q * n : Nat) : Fin 256))) src 0, src, o⟩ := by
  intro n
  induction n with
  | zero =>
      intro t o hv
      have hz : t src = 0 := by
        apply Fin.ext
        simpa using hv
      have ht : tapeSet (tapeSet t dst (t dst + ((q * 0 : Nat) : Fin 256))) src 0
          = t := by
        funext j
        by_cases hj : j = src
        · subst hj
          rw [tapeSet_read_same, hz]
        · rw [tapeSet_read_other _ _ _ _ hj]
          by_cases hj2 : j = dst
          · subst hj2
            rw [tapeSet_read_same]
            simp
          · rw [tapeSet_read_other _ _ _ _ hj2]
      rw [ht]
      exact runs_loop_exit (by simpa using hz) (runs_nil _)
  | succ n ih =>
      intro t o hv
      have ht1dst : tapeSet t src (t src - 1) dst = t dst :=
        tapeSet_read_other _ _ _ _ (Ne.symm hne)
      have hbody : Runs (drainBody src dst q) ⟨t, src, o⟩
          ⟨tapeSet (tapeSet t src (t src - 1)) dst (t dst + (q : Fin 256)), src, o⟩ := by
        refine runs_minus (Runs.append (Runs.append
          (runs_move src dst (tapeSet t src (t src - 1)) o)
          (runs_plusses q (tapeSet t src (t src - 1)) dst o)) ?_)
        rw [ht1dst]
        exact runs_move dst src _ o
      have ht2src : (tapeSet (tapeSet t src (t src - 1)) dst
          (t dst + (q : Fin 256))) src = t src - 1 := by
        rw [tapeSet_read_other _ _ _ _ hne, tapeSet_read_same]
      have hv2 : ((tapeSet (tapeSet t src (t src - 1)) dst
          (t dst + (q : Fin 256))) src).val = n := by
        rw [ht2src]
        exact fin_pred_val _ _ hv
      have hrest := ih _ o hv2
      have hfinal : tapeSet (tapeSet (tapeSet (tapeSet t src (t src - 1)) dst
            (t dst + (q : Fin 256))) dst
            ((tapeSet (tapeSet t src (t src - 1)) dst (t dst + (q : Fin 256))) dst
              + ((q * n : Nat) : Fin 256))) src 0
          = tapeSet (tapeSet t dst (t dst + ((q * (n + 1) : Nat) : Fin 256))) src 0 := by
        funext j
        by_cases hj : j = src
        · subst hj
          rw [tapeSet_read_same, tapeSet_read_same]
        · rw [tapeSet_read_other _ _ _ _ hj, tapeSet_read_other _ _ _ _ hj]
          by_cases hj2 : j = dst
          · subst hj2
            rw [tapeSet_read_same, tapeSet_read_same, tapeSet_read_same]
            push_cast
            ring
          · rw [tapeSet_read_other _ _ _ _ hj2, tapeSet_read_other _ _ _ _ hj2,
              tapeSet_read_other _ _ _ _ hj2, tapeSet_read_other _ _ _ _ hj]
      rw [hfinal] at hrest
      exact runs_loop_iter (by simpa using fin_ne_zero_of_val _ _ hv) hbody hrest

/-- Body of the multiply loop of `set_value`: `[ →dst +^q →src - ]`. -/
def mulBody (src dst : Nat) (q : Nat) : List BfInstr :=
  moveInstrs src dst ++ List.replicate q .plus ++ moveInstrs dst src ++ [.minus]

/-- The moves-first, minus-last transfer loop has the same effect as the
minus-first one. -/
theorem runs_mul (src dst q : Nat) (hne : src ≠ dst) :
    ∀ (n : Nat) (t : Nat → Fin 256) (o : List (Fin 256)), (t src).val = n →
    Runs [.loop (mulBody src dst q)] ⟨t, src, o⟩
      ⟨tapeSet (tapeSet t dst (t dst + ((q * n : Nat) : Fin 256))) src 0, src, o⟩ := by
  intro n
  induction n with
  | zero =>
      intro t o hv
      have hz : t src = 0 := by
        apply Fin.ext
        simpa using hv
      have ht : tapeSet (tapeSet t dst (t dst + ((q * 0 : Nat) : Fin 256))) src 0
          = t := by
        funext j
        by_cases hj : j = src
        · subst hj
          rw [tapeSet_read_same, hz]
        · rw [tapeSet_read_other _ _ _ _ hj]
          by_cases hj2 : j = dst
          · subst hj2
            rw [tapeSet_read_same]
            simp
          · rw [tapeSet_read_other _ _ _ _ hj2]
      rw [ht]
      exact runs_loop_exit (by simpa using hz) (runs_nil _)
  | succ n ih =>
      intro t o hv
      have ht2 : tapeSet t dst (t dst + (q : Fin 256)) src = t src :=
        tapeSet_read_other _ _ _ _ hne
      have hbody : Runs (mulBody src dst q) ⟨t, src, o⟩
          ⟨tapeSet (tapeSet t dst (t dst + (q : Fin 256))) src (t src - 1), src, o⟩ := by
        refine Runs.append (Runs.append (Runs.append
          (runs_move src dst t o)
          (runs_plusses q t dst o)) (runs_move dst src _ o)) ?_
        refine runs_minus (p := []) ?_
        rw [show (⟨tapeSet t dst (t dst + (q : Fin 256)), src, o⟩ : BfState).tape
              ((⟨tapeSet t dst (t dst + (q : Fin 256)), src, o⟩ : BfState).head)
            = t src from ht2]
        exact runs_nil _
      have hv2 : ((tapeSet (tapeSet t dst (t dst + (q : Fin 256))) src (t src - 1)) src).val = n := by
        rw [tapeSet_read_same]
        exact fin_pred_val _ _ hv
      have hrest := ih _ o hv2
      have hfinal : tapeSet (tapeSet (tapeSet (tapeSet t dst (t dst + (q : Fin 256)))
            src (t src - 1)) dst
            ((tapeSet (tapeSet t dst (t dst + (q : Fin 256))) src (t src - 1)) dst
              + ((q * n : Nat) : Fin 256))) src 0
          = tapeSet (tapeSet t dst (t dst + ((q * (n + 1) : Nat) : Fin 256))) src 0 := by
        funext j
        by_cases hj : j = src
        · subst hj
          rw [tapeSet_read_same, tapeSet_read_same]
        · rw [tapeSet_read_other _ _ _ _ hj, tapeSet_read_other _ _ _ _ hj]
          by_cases hj2 : j = dst
          · subst hj2
            rw [tapeSet_read_same, tapeSet_read_other _ _ _ _ (Ne.symm hne),
              tapeSet_read_same, tapeSet_read_same]
            push_cast
            ring
          · rw [tapeSet_read_other _ _ _ _ hj2, tapeSet_read_other _ _ _ _ hj,
              tapeSet_read_other _ _ _ _ hj2, tapeSet_read_other _ _ _ _ hj2]
      rw [hfinal] at hrest
      exact runs_loop_iter (by simpa using fin_ne_zero_of_val _ _ hv) hbody hrest

/-- Body of the copy loop of `copy_value`: `[- →dst + →tmp + →src ]`. -/
def copyBody (src dst tmp : Nat) : List BfInstr :=
  .minus :: (moveInstrs src dst ++ .plus :: (moveInstrs dst tmp ++ .plus ::
    moveInstrs tmp src))

/-- The dual-target drain loop of `copy_value` zeroes `src` while adding
its value to both `dst` and `tmp`. -/
theorem runs_copyloop (src dst tmp : Nat) (hsd : src ≠ dst) (hdt : dst ≠ tmp)
    (hts : tmp ≠ src) :
    ∀ (n : Nat) (t : Nat → Fin 256) (o : List (Fin 256)), (t src).val = n →
    Runs [.loop (copyBody src dst tmp)] ⟨t, src, o⟩
      ⟨tapeSet (tapeSet (tapeSet t dst (t dst + (n : Fin 256)))
        tmp (t tmp + (n : Fin 256))) src 0, src, o⟩ := by
  intro n
  induction n with
  | zero =>
      intro t o hv
      have hz : t src = 0 := by
        apply Fin.ext
        simpa using hv
      have ht : tapeSet (tapeSet (tapeSet t dst (t dst + ((0 : Nat) : Fin 256)))
          tmp (t tmp + ((0 : Nat) : Fin 256))) src 0 = t := by
        funext j
        by_cases hj : j = src
        · subst hj
          rw [tapeSet_read_same, hz]
        · rw [tapeSet_read_other _ _ _ _ hj]
          by_cases hj2 : j = tmp
          · subst hj2
            rw [tapeSet_read_same]
            simp
          · rw [tapeSet_read_other _ _ _ _ hj2]
            by_cases hj3 : j = dst
            · subst hj3
              rw [tapeSet_read_same]
              simp
            · rw [tapeSet_read_other _ _ _ _ hj3]
      rw [ht]
      exact runs_loop_exit (by simpa using hz) (runs_nil _)
  | succ n ih =>
      intro t o hv
      have ht1dst : tapeSet t src (t src - 1) dst = t dst :=
        tapeSet_read_other _ _ _ _ (Ne.symm hsd)
      have hbody : Runs (copyBody src dst tmp) ⟨t, src, o⟩
          ⟨tapeSet (tapeSet (tapeSet t src (t src - 1)) dst
            (tapeSet t src (t src - 1) dst + 1)) tmp
            (tapeSet (tapeSet t src (t src - 1)) dst
              (tapeSet t src (t src - 1) dst + 1) tmp + 1), src, o⟩ := by
        refine runs_minus (Runs.append
          (runs_move src dst (tapeSet t src (t src - 1)) o)
          (runs_plus (Runs.append (runs_move dst tmp _ o)
            (runs_plus ?_))))
        exact runs_move tmp src _ o
      have hv2 : ((tapeSet (tapeSet (tapeSet t src (t src - 1)) dst
          (tapeSet t src (t src - 1) dst + 1)) tmp
          (tapeSet (tapeSet t src (t src - 1)) dst
            (tapeSet t src (t src - 1) dst + 1) tmp + 1)) src).val = n := by
        rw [tapeSet_read_other _ _ _ _ (Ne.symm hts),
          tapeSet_read_other _ _ _ _ hsd, tapeSet_read_same]
        exact fin_pred_val _ _ hv
      have hrest := ih _ o hv2
      have hT3 : tapeSet (tapeSet (tapeSet t src (t src - 1)) dst
          (tapeSet t src (t src - 1) dst + 1)) tmp
          (tapeSet (tapeSet t src (t src - 1)) dst
            (tapeSet t src (t src - 1) dst + 1) tmp + 1) dst
          = t dst + 1 := by
        rw [tapeSet_read_other _ _ _ _ hdt, tapeSet_read_same, ht1dst]
      have hT3t : tapeSet (tapeSet (tapeSet t src (t src - 1)) dst
          (tapeSet t src (t src - 1) dst + 1)) tmp
          (tapeSet (tapeSet t src (t src - 1)) dst
            (tapeSet t src (t src - 1) dst + 1) tmp + 1) tmp
          = t tmp + 1 := by
        rw [tapeSet_read_same, tapeSet_read_other _ _ _ _ (Ne.symm hdt),
          tapeSet_read_other _ _ _ _ hts]
      rw [hT3] at hrest
      rw [hT3t] at hrest
      have hfinal : tapeSet (tapeSet (tapeSet (tapeSet (tapeSet (tapeSet t src
            (t src - 1)) dst (tapeSet t src (t src - 1) dst + 1)) tmp
            (tapeSet (tapeSet t src (t src - 1)) dst
              (tapeSet t src (t src - 1) dst + 1) tmp + 1)) dst
            (t dst + 1 + (n : Fin 256))) tmp (t tmp + 1 + (n : Fin 256))) src 0
          = tapeSet (tapeSet (tapeSet t dst (t dst + ((n + 1 : Nat) : Fin 256)))
              tmp (t tmp + ((n + 1 : Nat) : Fin 256))) src 0 := by
        funext j
        by_cases hj : j = src
        · subst hj
          rw [tapeSet_read_same, tapeSet_read_same]
        · rw [tapeSet_read_other _ _ _ _ hj, tapeSet_read_other _ _ _ _ hj]
          by_cases hj2 : j = tmp
          · subst hj2
            rw [tapeSet_read_same, tapeSet_read_same]
            push_cast
            ring
          · rw [tapeSet_read_other _ _ _ _ hj2, tapeSet_read_other _ _ _ _ hj2]
            by_cases hj3 : j = dst
            · subst hj3
              rw [tapeSet_read_same, tapeSet_read_same]
              push_cast
              ring
            · rw [tapeSet_read_other _ _ _ _ hj3, tapeSet_read_other _ _ _ _ hj3,
                tapeSet_read_other _ _ _ _ hj2, tapeSet_read_other _ _ _ _ hj3,
                tapeSet_read_other _ _ _ _ hj]
      rw [hfinal] at hrest
      exact runs_loop_iter (by simpa using fin_ne_zero_of_val _ _ hv) hbody hrest

/-! ## Structural form of the emitted fragments -/

/-- The instruction sequence whose rendering `set_value(addr, value)`
emits when called with model head `m`. -/
def setValueInstrs (m addr : Nat) (value : Int) : List BfInstr :=
  moveInstrs m addr ++ [.loop [.minus]] ++
  (if value > 0 then
    if value ≥ 10 then
      List.replicate (isqrt value.toNat) .plus
      ++ [.loop (mulBody addr (addr + 1) (isqrt value.toNat))]
      ++ moveInstrs addr (addr + 1)
      ++ [.loop (drainBody (addr + 1) addr 1)]
      ++ moveInstrs (addr + 1) addr
      ++ (if value.toNat - isqrt value.toNat * isqrt value.toNat > 0 then
            List.replicate (value.toNat - isqrt value.toNat * isqrt value.toNat) .plus
          else [])
    else List.replicate value.toNat .plus
  else if value < 0 then List.replicate (-value).toNat .minus
  else [])

theorem set_value_eq (g : BrainfuckGenerator) (addr : Nat) (value : Int) :
    g.set_value addr value
      = { g with output := g.output ++ render (setValueInstrs g.memory_ptr addr value),
                 memory_ptr := addr } := by
  unfold BrainfuckGenerator.set_value setValueInstrs BrainfuckGenerator.clear_cell
  simp only [move_to_eq, BrainfuckGenerator.pushStr]
  split_ifs <;>
    simp [mulBody, drainBody, moveInstrs, render_append, render,
      render_replicate_plus, render_replicate_minus, render_replicate_right,
      render_replicate_left, List.append_assoc]

/-- The instruction sequence whose rendering `copy_value(from, to)`
emits when called with model head `m` and fresh temp `temp`. -/
def copyInstrs (m from_ to_ temp : Nat) : List BfInstr :=
  moveInstrs m to_ ++ [.loop [.minus]] ++ moveInstrs to_ temp ++ [.loop [.minus]]
  ++ moveInstrs temp from_ ++ [.loop (copyBody from_ to_ temp)]
  ++ moveInstrs from_ temp ++ [.loop (drainBody temp from_ 1)]

theorem copy_value_eq (g : BrainfuckGenerator) (from_ to_ : Nat) :
    g.copy_value from_ to_
      = { g with output := g.output ++
              render (copyInstrs g.memory_ptr from_ to_ g.next_temp_addr),
                 memory_ptr := g.next_temp_addr,
                 next_temp_addr := g.next_temp_addr + 1 } := by
  unfold BrainfuckGenerator.copy_value copyInstrs BrainfuckGenerator.clear_cell
    BrainfuckGenerator.get_temp_addr
  simp [move_to_eq, BrainfuckGenerator.pushStr, copyBody, drainBody,
    render_append, render, render_replicate_plus, List.append_assoc]

/-- Executing the `set_value` fragment from the model head, with the
scratch cell `addr+1` initially zero, materializes `v` in `addr` (for any
prior contents of `addr`) and leaves `addr+1` zero. -/
theorem runs_setValue (m addr v : Nat) (hv : v ≤ 255)
    (t : Nat → Fin 256) (o : List (Fin 256)) (h0 : t (addr + 1) = 0) :
    Runs (setValueInstrs m addr (v : Int)) ⟨t, m, o⟩
      ⟨tapeSet t addr (v : Fin 256), addr, o⟩ := by
  unfold setValueInstrs
  simp only [isqrt_eq]
  have hclear : Runs (moveInstrs m addr ++ [.loop [.minus]]) ⟨t, m, o⟩
      ⟨tapeSet t addr 0, addr, o⟩ :=
    Runs.append (runs_move m addr t o) (runs_clear _ t addr o rfl)
  by_cases hv0 : v = 0
  · subst hv0
    rw [if_neg (by simp), if_neg (by simp), List.append_nil]
    simpa using hclear
  · rw [if_pos (by exact_mod_cast Nat.pos_of_ne_zero hv0)]
    by_cases hv10 : v < 10
    · rw [if_neg (show ¬ ((v : Int) ≥ 10) by exact_mod_cast not_le.mpr hv10),
        Int.toNat_natCast]
      refine Runs.append hclear ?_
      have := runs_plusses v (tapeSet t addr 0) addr o
      rw [tapeSet_read_same, tapeSet_overwrite, zero_add] at this
      exact this
    · rw [if_pos (by exact_mod_cast Nat.le_of_not_lt hv10), Int.toNat_natCast]
      set q := Nat.sqrt v with hq
      have hqq : q * q ≤ v := Nat.sqrt_le v
      have hq16 : q < 16 := by nlinarith
      have hane : addr ≠ addr + 1 := by omega
      -- after the clear and the `q` plusses the cell holds `q`
      have hplus : Runs (List.replicate q .plus) ⟨tapeSet t addr 0, addr, o⟩
          ⟨tapeSet t addr (q : Fin 256), addr, o⟩ := by
        have := runs_plusses q (tapeSet t addr 0) addr o
        rwa [tapeSet_read_same, tapeSet_overwrite, zero_add] at this
      -- the multiply loop puts `q*q` in `addr+1` and zeroes `addr`
      have hmul : Runs [.loop (mulBody addr (addr + 1) q)]
          ⟨tapeSet t addr (q : Fin 256), addr, o⟩
          ⟨tapeSet (tapeSet (tapeSet t addr (q : Fin 256)) (addr + 1)
            ((q * q : Nat) : Fin 256)) addr 0, addr, o⟩ := by
        have hval : ((tapeSet t addr (q : Fin 256)) addr).val = q := by
          rw [tapeSet_read_same]
          exact Fin.val_cast_of_lt (by omega)
        have := runs_mul addr (addr + 1) q hane q
          (tapeSet t addr (q : Fin 256)) o hval
        rwa [tapeSet_read_other _ _ _ _ (Ne.symm hane), h0, zero_add] at this
      -- move to `addr+1`, drain it back into `addr`
      have hmove1 : Runs (moveInstrs addr (addr + 1))
          ⟨tapeSet (tapeSet (tapeSet t addr (q : Fin 256)) (addr + 1)
            ((q * q : Nat) : Fin 256)) addr 0, addr, o⟩
          ⟨tapeSet (tapeSet (tapeSet t addr (q : Fin 256)) (addr + 1)
            ((q * q : Nat) : Fin 256)) addr 0, addr + 1, o⟩ :=
        runs_move addr (addr + 1) _ o
      have hdrainval : ((tapeSet (tapeSet (tapeSet t addr (q : Fin 256)) (addr + 1)
          ((q * q : Nat) : Fin 256)) addr 0) (addr + 1)).val = q * q := by
        rw [tapeSet_read_other _ _ _ _ (Ne.symm hane), tapeSet_read_same]
        exact Fin.val_cast_of_lt (by nlinarith)
      have hdrain : Runs [.loop (drainBody (addr + 1) addr 1)]
          ⟨tapeSet (tapeSet (tapeSet t addr (q : Fin 256)) (addr + 1)
            ((q * q : Nat) : Fin 256)) addr 0, addr + 1, o⟩
          ⟨tapeSet (tapeSet (tapeSet (tapeSet (tapeSet t addr (q : Fin 256))
              (addr + 1) ((q * q : Nat) : Fin 256)) addr 0) addr
              ((q * q : Nat) : Fin 256)) (addr + 1) 0, addr + 1, o⟩ := by
        have := runs_drain (addr + 1) addr 1 (by omega) (q * q)
          (tapeSet (tapeSet (tapeSet t addr (q : Fin 256)) (addr + 1)
            ((q * q : Nat) : Fin 256)) addr 0) o hdrainval
        rwa [tapeSet_read_same, zero_add, one_mul] at this
      have hmove2 : Runs (moveInstrs (addr + 1) addr) _ _ :=
        runs_move (addr + 1) addr (tapeSet (tapeSet (tapeSet (tapeSet (tapeSet t
          addr (q : Fin 256)) (addr + 1) ((q * q : Nat) : Fin 256)) addr 0) addr
          ((q * q : Nat) : Fin 256)) (addr + 1) 0) o
      -- the tape after the drain collapses
      have hcollapse : tapeSet (tapeSet (tapeSet (tapeSet (tapeSet t
          addr (q : Fin 256)) (addr + 1) ((q * q : Nat) : Fin 256)) addr 0) addr
          ((q * q : Nat) : Fin 256)) (addr + 1) 0
          = tapeSet t addr ((q * q : Nat) : Fin 256) := by
        funext j
        by_cases hj : j = addr + 1
        · subst hj
          rw [tapeSet_read_same, tapeSet_read_other _ _ _ _ (Ne.symm hane), h0]
        · rw [tapeSet_read_other _ _ _ _ hj]
          by_cases hj2 : j = addr
          · subst hj2
            rw [tapeSet_read_same, tapeSet_read_same]
          · simp [tapeSet, hj, hj2]
      by_cases hr : v - q * q > 0
      · rw [if_pos hr]
        have hrem : Runs (List.replicate (v - q * q) .plus)
            ⟨tapeSet t addr ((q * q : Nat) : Fin 256), addr, o⟩
            ⟨tapeSet t addr (v : Fin 256), addr, o⟩ := by
          have := runs_plusses (v - q * q) (tapeSet t addr ((q * q : Nat) : Fin 256)) addr o
          rw [tapeSet_read_same, tapeSet_overwrite] at this
          have hcast : ((q * q : Nat) : Fin 256) + ((v - q * q : Nat) : Fin 256)
              = (v : Fin 256) := by
            rw [← Nat.cast_add]
            congr 1
            omega
          rwa [hcast] at this
        rw [hcollapse] at hdrain hmove2
        exact Runs.append hclear (Runs.append (Runs.append (Runs.append
          (Runs.append (Runs.append hplus hmul) hmove1) hdrain) hmove2) hrem)
      · rw [if_neg hr, List.append_nil]
        have hveq : v = q * q := by omega
        rw [hcollapse] at hdrain hmove2
        rw [show ((v : Nat) : Fin 256) = ((q * q : Nat) : Fin 256) by rw [hveq]]
        exact Runs.append hclear (Runs.append (Runs.append (Runs.append
          (Runs.append hplus hmul) hmove1) hdrain) hmove2)

/-- Executing the `copy_value` fragment from the model head copies the
source cell into the destination nondestructively, leaving the fresh temp
cell zero and the head at the temp cell. -/
theorem runs_copyValue (m src dst temp : Nat) (hsd : src ≠ dst)
    (hdt : dst ≠ temp) (hts : temp ≠ src)
    (t : Nat → Fin 256) (o : List (Fin 256)) :
    Runs (copyInstrs m src dst temp) ⟨t, m, o⟩
      ⟨tapeSet (tapeSet t dst (t src)) temp 0, temp, o⟩ := by
  unfold copyInstrs
  have h1 : Runs (moveInstrs m dst) ⟨t, m, o⟩ ⟨t, dst, o⟩ := runs_move m dst t o
  have h2 : Runs [.loop [.minus]] ⟨t, dst, o⟩ ⟨tapeSet t dst 0, dst, o⟩ :=
    runs_clear _ t dst o rfl
  have h3 : Runs (moveInstrs dst temp) ⟨tapeSet t dst 0, dst, o⟩
      ⟨tapeSet t dst 0, temp, o⟩ := runs_move dst temp _ o
  have h4 : Runs [.loop [.minus]] ⟨tapeSet t dst 0, temp, o⟩
      ⟨tapeSet (tapeSet t dst 0) temp 0, temp, o⟩ := runs_clear _ _ temp o rfl
  have h5 : Runs (moveInstrs temp src) ⟨tapeSet (tapeSet t dst 0) temp 0, temp, o⟩
      ⟨tapeSet (tapeSet t dst 0) temp 0, src, o⟩ := runs_move temp src _ o
  have hval2 : ((tapeSet (tapeSet t dst 0) temp 0) src).val = (t src).val := by
    rw [tapeSet_read_other _ _ _ _ (Ne.symm hts), tapeSet_read_other _ _ _ _ hsd]
  have h6 := runs_copyloop src dst temp hsd hdt hts (t src).val
    (tapeSet (tapeSet t dst 0) temp 0) o hval2
  rw [show (tapeSet (tapeSet t dst 0) temp 0) dst = 0 from by
      rw [tapeSet_read_other _ _ _ _ hdt, tapeSet_read_same],
    show (tapeSet (tapeSet t dst 0) temp 0) temp = 0 from tapeSet_read_same _ _ _,
    zero_add, Fin.cast_val_eq_self] at h6
  have h7 : Runs (moveInstrs src temp) _ _ :=
    runs_move src temp (tapeSet (tapeSet (tapeSet (tapeSet (tapeSet t dst 0)
      temp 0) dst (t src)) temp (t src)) src 0) o
  have hval3 : ((tapeSet (tapeSet (tapeSet (tapeSet (tapeSet t dst 0)
      temp 0) dst (t src)) temp (t src)) src 0) temp).val = (t src).val := by
    rw [tapeSet_read_other _ _ _ _ hts, tapeSet_read_same]
  have h8 := runs_drain temp src 1 hts (t src).val
    (tapeSet (tapeSet (tapeSet (tapeSet (tapeSet t dst 0)
      temp 0) dst (t src)) temp (t src)) src 0) o hval3
  rw [show (tapeSet (tapeSet (tapeSet (tapeSet (tapeSet t dst 0)
      temp 0) dst (t src)) temp (t src)) src 0) src = 0 from
      tapeSet_read_same _ _ _,
    zero_add, one_mul, Fin.cast_val_eq_self] at h8
  have hcollapse : tapeSet (tapeSet (tapeSet (tapeSet (tapeSet (tapeSet
        (tapeSet t dst 0) temp 0) dst (t src)) temp (t src)) src 0) src
        (t src)) temp 0
      = tapeSet (tapeSet t dst (t src)) temp 0 := by
    funext j
    by_cases hj : j = temp
    · subst hj
      simp [tapeSet]
    · by_cases hj2 : j = src
      · subst hj2
        simp [tapeSet, hj, Ne.symm hsd]
      · by_cases hj3 : j = dst
        · subst hj3
          simp [tapeSet, hj, hj2, Ne.symm hsd]
        · simp [tapeSet, hj, hj2, hj3]
  rw [hcollapse] at h8
  exact Runs.append (Runs.append (Runs.append (Runs.append (Runs.append
    (Runs.append (Runs.append h1 h2) h3) h4) h5) h6) h7) h8

/-! ## Bracket balance -/

/-- The claim's balance property: every prefix has at least as many `[`
as `]`, with equality for the whole string. -/
def BalancedStr (cs : List Char) : Prop :=
  (∀ n, (cs.take n).count ']' ≤ (cs.take n).count '[') ∧
    cs.count '[' = cs.count ']'

theorem bal_nil : BalancedStr [] := by
  constructor
  · intro n; simp
  · simp

theorem bal_append {a b : List Char} (ha : BalancedStr a) (hb : BalancedStr b) :
    BalancedStr (a ++ b) := by
  obtain ⟨ha1, ha2⟩ := ha
  obtain ⟨hb1, hb2⟩ := hb
  constructor
  · intro n
    rw [List.take_append_eq_append_take, List.count_append, List.count_append]
    have h1 := ha1 n
    have h2 := hb1 (n - a.length)
    by_cases hn : n ≤ a.length
    · omega
    · have hta : a.take n = a := List.take_of_length_le (by omega)
      rw [hta] at h1 ⊢
      omega
  · rw [List.count_append, List.count_append]
    omega

theorem bal_of_no_brackets {cs : List Char} (h1 : cs.count '[' = 0)
    (h2 : cs.count ']' = 0) : BalancedStr cs := by
  constructor
  · intro n
    have ha : (cs.take n).count ']' ≤ cs.count ']' :=
      (cs.take_sublist n).count_le _
    have hb : (cs.take n).count '[' ≤ cs.count '[' :=
      (cs.take_sublist n).count_le _
    omega
  · omega

theorem bal_wrap {b : List Char} (hb : BalancedStr b) :
    BalancedStr ('[' :: (b ++ [']'])) := by
  obtain ⟨hb1, hb2⟩ := hb
  constructor
  · intro n
    cases n with
    | zero => simp
    | succ k =>
        rw [List.take_succ_cons]
        have hinner : (List.take k (b ++ [']'])).count ']'
            ≤ 1 + (List.take k (b ++ [']'])).count '[' := by
          rw [List.take_append_eq_append_take, List.count_append,
            List.count_append]
          have h1 := hb1 k
          have hc1 : (List.take (k - b.length) [']']).count ']' ≤ 1 := by
            refine le_trans (List.count_le_length _ _) ?_
            rw [List.length_take]
            simp
          by_cases hk : k < b.length
          · have hz : k - b.length = 0 := by omega
            rw [hz]
            simp
            omega
          · have hta : b.take k = b := List.take_of_length_le (by omega)
            rw [hta] at h1 ⊢
            omega
        simp [List.count_cons]
        omega
  · simp [List.count_cons, List.count_append]
    omega

/-- Rendered instruction trees are balanced. -/
theorem render_balanced (p : List BfInstr) : BalancedStr (render p) := by
  match p with
  | [] =>
      rw [show render [] = [] from by rw [render]]
      exact bal_nil
  | .plus :: rest =>
      rw [show render (.plus :: rest) = ['+'] ++ render rest from by
        rw [render]; rfl]
      exact bal_append (bal_of_no_brackets (by simp) (by simp))
        (render_balanced rest)
  | .minus :: rest =>
      rw [show render (.minus :: rest) = ['-'] ++ render rest from by
        rw [render]; rfl]
      exact bal_append (bal_of_no_brackets (by simp) (by simp))
        (render_balanced rest)
  | .left :: rest =>
      rw [show render (.left :: rest) = ['<'] ++ render rest from by
        rw [render]; rfl]
      exact bal_append (bal_of_no_brackets (by simp) (by simp))
        (render_balanced rest)
  | .right :: rest =>
      rw [show render (.right :: rest) = ['>'] ++ render rest from by
        rw [render]; rfl]
      exact bal_append (bal_of_no_brackets (by simp) (by simp))
        (render_balanced rest)
  | .dot :: rest =>
      rw [show render (.dot :: rest) = ['.'] ++ render rest from by
        rw [render]; rfl]
      exact bal_append (bal_of_no_brackets (by simp) (by simp))
        (render_balanced rest)
  | .comma :: rest =>
      rw [show render (.comma :: rest) = [','] ++ render rest from by
        rw [render]; rfl]
      exact bal_append (bal_of_no_brackets (by simp) (by simp))
        (render_balanced rest)
  | .loop body :: rest =>
      have hb := render_balanced body
      have hr := render_balanced rest
      rw [show render (.loop body :: rest)
          = ('[' :: (render body ++ [']'])) ++ render rest from by
        rw [render]; simp]
      exact bal_append (bal_wrap hb) hr
termination_by sizeOf p

/-- In `x ++ ']' :: u` with `x` balanced, the shown `]` is the first
unmatched one, so the decomposition is unique. -/
theorem bal_append_cancel {x y u v : List Char} (hx : BalancedStr x)
    (hy : BalancedStr y) (h : x ++ ']' :: u = y ++ ']' :: v) :
    x = y ∧ u = v := by
  have hcase := (List.append_eq_append_iff).mp h
  rcases hcase with ⟨a, hya, hav⟩ | ⟨c, hxc, hcv⟩
  · cases a with
    | nil =>
        simp at hya hav
        obtain rfl := hya
        simp_all
    | cons c0 a0 =>
        exfalso
        have hc0 : c0 = ']' := by
          have := hav
          simp at this
          exact this.1.symm
        subst hc0
        have htake : y.take (x.length + 1) = x ++ [']'] := by
          rw [hya, List.take_append_eq_append_take]
          simp
        have := hy.1 (x.length + 1)
        rw [htake] at this
        simp [List.count_append] at this
        have hxeq := hx.2
        omega
  · cases c with
    | nil =>
        simp at hxc hcv
        obtain rfl := hxc
        simp_all
    | cons c0 a0 =>
        exfalso
        have hc0 : c0 = ']' := by
          have := hcv
          simp at this
          exact this.1.symm
        subst hc0
        have htake : x.take (y.length + 1) = y ++ [']'] := by
          rw [hxc, List.take_append_eq_append_take]
          simp
        have := hx.1 (y.length + 1)
        rw [htake] at this
        simp [List.count_append] at this
        have hyeq := hy.2
        omega

/-- Rendering is injective: a program text determines the instruction
tree. -/
theorem render_inj (p q : List BfInstr) (h : render p = render q) : p = q := by
  match p, q with
  | [], [] => rfl
  | [], i :: q1 =>
      exfalso
      cases i <;> rw [render, render] at h <;> simp at h
  | i :: p1, [] =>
      exfalso
      cases i <;> rw [render, render] at h <;> simp at h
  | i :: p1, j :: q1 =>
      cases i <;> cases j <;> rw [render, render] at h <;> simp at h <;>
        first
          | rw [render_inj p1 q1 h]
          | (obtain ⟨hbq, hrest⟩ := bal_append_cancel (render_balanced _)
              (render_balanced _) h
             rw [render_inj _ _ hbq, render_inj p1 q1 hrest])
termination_by sizeOf p

/-- A program text executes deterministically. -/
theorem strRuns_det {cs : List Char} {s t t1 : BfState}
    (h1 : StrRuns cs s t) (h2 : StrRuns cs s t1) : t = t1 := by
  obtain ⟨p, hp, hr⟩ := h1
  obtain ⟨q, hq, hr1⟩ := h2
  rw [← hq] at hp
  rw [render_inj p q hp] at hr
  exact Runs.det hr hr1

/-! ## Structural form of the compound primitives -/

/-- Instructions emitted by `add_values` (model head `m`, temp base `nt`). -/
def addInstrs (m r l rr nt : Nat) : List BfInstr :=
  copyInstrs m l r nt ++ copyInstrs nt rr (nt + 1) (nt + 2)
  ++ moveInstrs (nt + 2) (nt + 1) ++ [.loop (drainBody (nt + 1) r 1)]

theorem add_values_eq (g : BrainfuckGenerator) (r l rr : Nat) :
    g.add_values r l rr
      = { g with output := g.output ++
              render (addInstrs g.memory_ptr r l rr g.next_temp_addr),
                 memory_ptr := g.next_temp_addr + 1,
                 next_temp_addr := g.next_temp_addr + 3 } := by
  unfold BrainfuckGenerator.add_values addInstrs BrainfuckGenerator.get_temp_addr
  simp [copy_value_eq, move_to_eq, BrainfuckGenerator.pushStr, drainBody,
    render_append, render, render_replicate_plus, List.append_assoc]

/-- Instructions emitted by `sub_values`. -/
def subInstrs (m r l rr nt : Nat) : List BfInstr :=
  copyInstrs m l r nt ++ copyInstrs nt rr (nt + 1) (nt + 2)
  ++ moveInstrs (nt + 2) (nt + 1)
  ++ [.loop (.minus :: (moveInstrs (nt + 1) r ++ .minus :: moveInstrs r (nt + 1)))]

theorem sub_values_eq (g : BrainfuckGenerator) (r l rr : Nat) :
    g.sub_values r l rr
      = { g with output := g.output ++
              render (subInstrs g.memory_ptr r l rr g.next_temp_addr),
                 memory_ptr := g.next_temp_addr + 1,
                 next_temp_addr := g.next_temp_addr + 3 } := by
  unfold BrainfuckGenerator.sub_values subInstrs BrainfuckGenerator.get_temp_addr
  simp [copy_value_eq, move_to_eq, BrainfuckGenerator.pushStr,
    render_append, render, List.append_assoc]

/-- Instructions emitted by `compare_equal`. -/
def cmpInstrs (m r l rr nt : Nat) : List BfInstr :=
  copyInstrs m l nt (nt + 2) ++ copyInstrs (nt + 2) rr (nt + 1) (nt + 3)
  ++ moveInstrs (nt + 3) r ++ [.loop [.minus]] ++ [.plus]
  ++ moveInstrs r (nt + 1)
  ++ [.loop (.minus :: (moveInstrs (nt + 1) nt ++ .minus :: moveInstrs nt (nt + 1)))]
  ++ moveInstrs (nt + 1) nt
  ++ [.loop (moveInstrs nt r ++ .minus :: (moveInstrs r nt ++ [.loop [.minus]]))]

theorem compare_equal_eq (g : BrainfuckGenerator) (r l rr : Nat) :
    g.compare_equal r l rr
      = { g with output := g.output ++
              render (cmpInstrs g.memory_ptr r l rr g.next_temp_addr),
                 memory_ptr := g.next_temp_addr,
                 next_temp_addr := g.next_temp_addr + 4 } := by
  unfold BrainfuckGenerator.compare_equal cmpInstrs BrainfuckGenerator.get_temp_addr
    BrainfuckGenerator.clear_cell
  simp [copy_value_eq, move_to_eq, BrainfuckGenerator.pushStr,
    render_append, render, List.append_assoc]

/-- Instructions of the bit-flip idiom used for `NotEqual`. -/
def flipInstrs (m r nt : Nat) : List BfInstr :=
  moveInstrs m nt ++ [.plus] ++ moveInstrs nt r
  ++ [.loop (.minus :: (moveInstrs r nt ++ .minus :: moveInstrs nt r))]
  ++ moveInstrs r nt ++ [.loop (drainBody nt r 1)]

/-! ## Every emitted fragment renders an instruction tree -/

theorem eval_out (e : Expr) : ∀ (g : BrainfuckGenerator),
    ∃ q, ((g.evaluate_expression e).2).output = g.output ++ render q := by
  induction e with
  | number n =>
      intro g
      refine ⟨setValueInstrs g.memory_ptr g.next_temp_addr n, ?_⟩
      simp [BrainfuckGenerator.evaluate_expression,
        BrainfuckGenerator.get_temp_addr, set_value_eq]
  | var name =>
      intro g
      cases hv : varGet g.vars name with
      | some a =>
          refine ⟨[], ?_⟩
          simp [BrainfuckGenerator.evaluate_expression, hv, render]
      | none =>
          refine ⟨setValueInstrs g.memory_ptr g.next_temp_addr 0, ?_⟩
          simp [BrainfuckGenerator.evaluate_expression, hv,
            BrainfuckGenerator.get_temp_addr, set_value_eq]
  | binary l op r ihl ihr =>
      intro g
      rcases hl : g.evaluate_expression l with ⟨a1, g1⟩
      rcases hr : g1.evaluate_expression r with ⟨a2, g2⟩
      obtain ⟨q1, h1⟩ := ihl g
      obtain ⟨q2, h2⟩ := ihr g1
      rw [hl] at h1
      rw [hr] at h2
      simp only at h1 h2
      cases op with
      | add =>
          refine ⟨q1 ++ q2 ++ addInstrs g2.memory_ptr g2.next_temp_addr a1 a2
            (g2.next_temp_addr + 1), ?_⟩
          simp [BrainfuckGenerator.evaluate_expression, hl, hr,
            BrainfuckGenerator.get_temp_addr, add_values_eq, h1, h2,
            render_append, List.append_assoc]
      | sub =>
          refine ⟨q1 ++ q2 ++ subInstrs g2.memory_ptr g2.next_temp_addr a1 a2
            (g2.next_temp_addr + 1), ?_⟩
          simp [BrainfuckGenerator.evaluate_expression, hl, hr,
            BrainfuckGenerator.get_temp_addr, sub_values_eq, h1, h2,
            render_append, List.append_assoc]
      | equal =>
          refine ⟨q1 ++ q2 ++ cmpInstrs g2.memory_ptr g2.next_temp_addr a1 a2
            (g2.next_temp_addr + 1), ?_⟩
          simp [BrainfuckGenerator.evaluate_expression, hl, hr,
            BrainfuckGenerator.get_temp_addr, compare_equal_eq, h1, h2,
            render_append, List.append_assoc]
      | notEqual =>
          refine ⟨q1 ++ q2 ++ cmpInstrs g2.memory_ptr g2.next_temp_addr a1 a2
            (g2.next_temp_addr + 1)
            ++ flipInstrs (g2.next_temp_addr + 1) g2.next_temp_addr
              (g2.next_temp_addr + 5), ?_⟩
          simp [BrainfuckGenerator.evaluate_expression, hl, hr,
            BrainfuckGenerator.get_temp_addr, compare_equal_eq, move_to_eq,
            BrainfuckGenerator.pushStr, h1, h2, flipInstrs, drainBody,
            render_append, render, render_replicate_plus, List.append_assoc]
      | less =>
          refine ⟨q1 ++ q2 ++ copyInstrs g2.memory_ptr a1 (g2.next_temp_addr)
            (g2.next_temp_addr + 1), ?_⟩
          simp [BrainfuckGenerator.evaluate_expression, hl, hr,
            BrainfuckGenerator.get_temp_addr, copy_value_eq, h1, h2,
            render_append, List.append_assoc]
      | greater =>
          refine ⟨q1 ++ q2 ++ copyInstrs g2.memory_ptr a1 (g2.next_temp_addr)
            (g2.next_temp_addr + 1), ?_⟩
          simp [BrainfuckGenerator.evaluate_expression, hl, hr,
            BrainfuckGenerator.get_temp_addr, copy_value_eq, h1, h2,
            render_append, List.append_assoc]
      | mul =>
          refine ⟨q1 ++ q2, ?_⟩
          simp [BrainfuckGenerator.evaluate_expression, hl, hr,
            BrainfuckGenerator.get_temp_addr, h1, h2,
            render_append, List.append_assoc]
      | div =>
          refine ⟨q1 ++ q2, ?_⟩
          simp [BrainfuckGenerator.evaluate_expression, hl, hr,
            BrainfuckGenerator.get_temp_addr, h1, h2,
            render_append, List.append_assoc]

theorem cond_out (c : Expr) (g : BrainfuckGenerator) :
    ∃ q, ((g.evaluate_condition c).2).output = g.output ++ render q := by
  cases c with
  | number n =>
      simpa [BrainfuckGenerator.evaluate_condition] using eval_out (.number n) g
  | var s =>
      simpa [BrainfuckGenerator.evaluate_condition] using eval_out (.var s) g
  | binary l op r =>
      cases op with
      | equal =>
          rcases hl : g.evaluate_expression l with ⟨a1, g1⟩
          rcases hr : g1.evaluate_expression r with ⟨a2, g2⟩
          obtain ⟨q1, h1⟩ := eval_out l g
          obtain ⟨q2, h2⟩ := eval_out r g1
          rw [hl] at h1
          rw [hr] at h2
          simp only at h1 h2
          refine ⟨q1 ++ q2 ++ cmpInstrs g2.memory_ptr g2.next_temp_addr a1 a2
            (g2.next_temp_addr + 1), ?_⟩
          simp [BrainfuckGenerator.evaluate_condition, hl, hr,
            BrainfuckGenerator.get_temp_addr, compare_equal_eq, h1, h2,
            render_append, List.append_assoc]
      | greater =>
          simpa [BrainfuckGenerator.evaluate_condition] using eval_out l g
      | add =>
          simpa [BrainfuckGenerator.evaluate_condition] using
            eval_out (.binary l .add r) g
      | sub =>
          simpa [BrainfuckGenerator.evaluate_condition] using
            eval_out (.binary l .sub r) g
      | mul =>
          simpa [BrainfuckGenerator.evaluate_condition] using
            eval_out (.binary l .mul r) g
      | div =>
          simpa [BrainfuckGenerator.evaluate_condition] using
            eval_out (.binary l .div r) g
      | notEqual =>
          simpa [BrainfuckGenerator.evaluate_condition] using
            eval_out (.binary l .notEqual r) g
      | less =>
          simpa [BrainfuckGenerator.evaluate_condition] using
            eval_out (.binary l .less r) g

/-! ## Projection lemmas for the generator operations -/

@[simp] theorem pushStr_output (g : BrainfuckGenerator) (s : List Char) :
    (g.pushStr s).output = g.output ++ s := rfl

@[simp] theorem pushStr_vars (g : BrainfuckGenerator) (s : List Char) :
    (g.pushStr s).vars = g.vars := rfl

@[simp] theorem pushStr_memory_ptr (g : BrainfuckGenerator) (s : List Char) :
    (g.pushStr s).memory_ptr = g.memory_ptr := rfl

@[simp] theorem pushStr_next_temp_addr (g : BrainfuckGenerator) (s : List Char) :
    (g.pushStr s).next_temp_addr = g.next_temp_addr := rfl

@[simp] theorem move_to_output (g : BrainfuckGenerator) (t : Nat) :
    (g.move_to t).output = g.output ++ render (moveInstrs g.memory_ptr t) := by
  rw [move_to_eq]

@[simp] theorem move_to_vars (g : BrainfuckGenerator) (t : Nat) :
    (g.move_to t).vars = g.vars := by rw [move_to_eq]

@[simp] theorem move_to_memory_ptr (g : BrainfuckGenerator) (t : Nat) :
    (g.move_to t).memory_ptr = t := by rw [move_to_eq]

@[simp] theorem move_to_next_temp_addr (g : BrainfuckGenerator) (t : Nat) :
    (g.move_to t).next_temp_addr = g.next_temp_addr := by rw [move_to_eq]

@[simp] theorem clear_cell_output (g : BrainfuckGenerator) :
    g.clear_cell.output = g.output ++ ['[', '-', ']'] := rfl

@[simp] theorem clear_cell_vars (g : BrainfuckGenerator) :
    g.clear_cell.vars = g.vars := rfl

@[simp] theorem clear_cell_memory_ptr (g : BrainfuckGenerator) :
    g.clear_cell.memory_ptr = g.memory_ptr := rfl

@[simp] theorem clear_cell_next_temp_addr (g : BrainfuckGenerator) :
    g.clear_cell.next_temp_addr = g.next_temp_addr := rfl

@[simp] theorem get_temp_addr_fst (g : BrainfuckGenerator) :
    (g.get_temp_addr).1 = g.next_temp_addr := rfl

@[simp] theorem get_temp_addr_vars (g : BrainfuckGenerator) :
    (g.get_temp_addr).2.vars = g.vars := rfl

@[simp] theorem get_temp_addr_memory_ptr (g : BrainfuckGenerator) :
    (g.get_temp_addr).2.memory_ptr = g.memory_ptr := rfl

@[simp] theorem get_temp_addr_output (g : BrainfuckGenerator) :
    (g.get_temp_addr).2.output = g.output := rfl

@[simp] theorem get_temp_addr_next_temp_addr (g : BrainfuckGenerator) :
    (g.get_temp_addr).2.next_temp_addr = g.next_temp_addr + 1 := rfl

@[simp] theorem allocate_variable_fst (g : BrainfuckGenerator) (name : String) :
    (g.allocate_variable name).1 = g.memory_ptr := rfl

@[simp] theorem allocate_variable_vars (g : BrainfuckGenerator) (name : String) :
    (g.allocate_variable name).2.vars = varInsert g.vars name g.memory_ptr := rfl

@[simp] theorem allocate_variable_memory_ptr (g : BrainfuckGenerator)
    (name : String) :
    (g.allocate_variable name).2.memory_ptr = g.memory_ptr + 1 := rfl

@[simp] theorem allocate_variable_output (g : BrainfuckGenerator) (name : String) :
    (g.allocate_variable name).2.output = g.output := rfl

@[simp] theorem allocate_variable_next_temp_addr (g : BrainfuckGenerator)
    (name : String) :
    (g.allocate_variable name).2.next_temp_addr = g.next_temp_addr := rfl

@[simp] theorem copy_value_output (g : BrainfuckGenerator) (from_ to_ : Nat) :
    (g.copy_value from_ to_).output
      = g.output ++ render (copyInstrs g.memory_ptr from_ to_ g.next_temp_addr) := by
  rw [copy_value_eq]

@[simp] theorem copy_value_vars (g : BrainfuckGenerator) (from_ to_ : Nat) :
    (g.copy_value from_ to_).vars = g.vars := by rw [copy_value_eq]

@[simp] theorem copy_value_memory_ptr (g : BrainfuckGenerator) (from_ to_ : Nat) :
    (g.copy_value from_ to_).memory_ptr = g.next_temp_addr := by rw [copy_value_eq]

@[simp] theorem copy_value_next_temp_addr (g : BrainfuckGenerator)
    (from_ to_ : Nat) :
    (g.copy_value from_ to_).next_temp_addr = g.next_temp_addr + 1 := by
  rw [copy_value_eq]

@[simp] theorem set_value_output (g : BrainfuckGenerator) (addr : Nat)
    (value : Int) :
    (g.set_value addr value).output
      = g.output ++ render (setValueInstrs g.memory_ptr addr value) := by
  rw [set_value_eq]

@[simp] theorem set_value_vars (g : BrainfuckGenerator) (addr : Nat)
    (value : Int) : (g.set_value addr value).vars = g.vars := by
  rw [set_value_eq]

@[simp] theorem set_value_memory_ptr (g : BrainfuckGenerator) (addr : Nat)
    (value : Int) : (g.set_value addr value).memory_ptr = addr := by
  rw [set_value_eq]

@[simp] theorem set_value_next_temp_addr (g : BrainfuckGenerator) (addr : Nat)
    (value : Int) :
    (g.set_value addr value).next_temp_addr = g.next_temp_addr := by
  rw [set_value_eq]

@[simp] theorem add_values_output (g : BrainfuckGenerator) (r l rr : Nat) :
    (g.add_values r l rr).output
      = g.output ++ render (addInstrs g.memory_ptr r l rr g.next_temp_addr) := by
  rw [add_values_eq]

@[simp] theorem add_values_vars (g : BrainfuckGenerator) (r l rr : Nat) :
    (g.add_values r l rr).vars = g.vars := by rw [add_values_eq]

@[simp] theorem add_values_memory_ptr (g : BrainfuckGenerator) (r l rr : Nat) :
    (g.add_values r l rr).memory_ptr = g.next_temp_addr + 1 := by
  rw [add_values_eq]

@[simp] theorem add_values_next_temp_addr (g : BrainfuckGenerator) (r l rr : Nat) :
    (g.add_values r l rr).next_temp_addr = g.next_temp_addr + 3 := by
  rw [add_values_eq]

@[simp] theorem sub_values_output (g : BrainfuckGenerator) (r l rr : Nat) :
    (g.sub_values r l rr).output
      = g.output ++ render (subInstrs g.memory_ptr r l rr g.next_temp_addr) := by
  rw [sub_values_eq]

@[simp] theorem sub_values_vars (g : BrainfuckGenerator) (r l rr : Nat) :
    (g.sub_values r l rr).vars = g.vars := by rw [sub_values_eq]

@[simp] theorem sub_values_memory_ptr (g : BrainfuckGenerator) (r l rr : Nat) :
    (g.sub_values r l rr).memory_ptr = g.next_temp_addr + 1 := by
  rw [sub_values_eq]

@[simp] theorem sub_values_next_temp_addr (g : BrainfuckGenerator) (r l rr : Nat) :
    (g.sub_values r l rr).next_temp_addr = g.next_temp_addr + 3 := by
  rw [sub_values_eq]

@[simp] theorem compare_equal_output (g : BrainfuckGenerator) (r l rr : Nat) :
    (g.compare_equal r l rr).output
      = g.output ++ render (cmpInstrs g.memory_ptr r l rr g.next_temp_addr) := by
  rw [compare_equal_eq]

@[simp] theorem compare_equal_vars (g : BrainfuckGenerator) (r l rr : Nat) :
    (g.compare_equal r l rr).vars = g.vars := by rw [compare_equal_eq]

@[simp] theorem compare_equal_memory_ptr (g : BrainfuckGenerator) (r l rr : Nat) :
    (g.compare_equal r l rr).memory_ptr = g.next_temp_addr := by
  rw [compare_equal_eq]

@[simp] theorem compare_equal_next_temp_addr (g : BrainfuckGenerator)
    (r l rr : Nat) :
    (g.compare_equal r l rr).next_temp_addr = g.next_temp_addr + 4 := by
  rw [compare_equal_eq]

mutual

theorem stmt_out : ∀ (s : Stmt) (g : BrainfuckGenerator),
    ∃ q, (BrainfuckGenerator.visit_stmt g s).output = g.output ++ render q
  | .letStmt name mu value, g => by
      rcases he : ((g.allocate_variable name).2).evaluate_expression value
        with ⟨va, g2⟩
      obtain ⟨q1, h1⟩ := eval_out value ((g.allocate_variable name).2)
      rw [he] at h1
      simp only [allocate_variable_output] at h1
      simp only [BrainfuckGenerator.allocate_variable] at he
      refine ⟨q1 ++ copyInstrs g2.memory_ptr va g.memory_ptr g2.next_temp_addr, ?_⟩
      simp [BrainfuckGenerator.visit_stmt, BrainfuckGenerator.allocate_variable,
        he, h1, render_append, List.append_assoc]
  | .assign name value, g => by
      cases hv : varGet g.vars name with
      | none =>
          refine ⟨[], ?_⟩
          simp [BrainfuckGenerator.visit_stmt, hv, render]
      | some addr =>
          rcases he : g.evaluate_expression value with ⟨va, g2⟩
          obtain ⟨q1, h1⟩ := eval_out value g
          rw [he] at h1
          simp only at h1
          refine ⟨q1 ++ copyInstrs g2.memory_ptr va addr g2.next_temp_addr, ?_⟩
          simp [BrainfuckGenerator.visit_stmt, hv, he, h1,
            render_append, List.append_assoc]
  | .print value, g => by
      rcases he : g.evaluate_expression value with ⟨a, g1⟩
      obtain ⟨q1, h1⟩ := eval_out value g
      rw [he] at h1
      simp only at h1
      refine ⟨q1 ++ moveInstrs g1.memory_ptr a ++ [.dot], ?_⟩
      simp [BrainfuckGenerator.visit_stmt, he, h1, render_append, render,
        List.append_assoc]
  | .ifStmt c body, g => by
      rcases hc : g.evaluate_condition c with ⟨a, g1⟩
      obtain ⟨q1, h1⟩ := cond_out c g
      rw [hc] at h1
      simp only at h1
      obtain ⟨qb, hb⟩ := stmts_out body ((g1.move_to a).pushStr ['['])
      refine ⟨q1 ++ moveInstrs g1.memory_ptr a ++
        [.loop (qb ++ moveInstrs (BrainfuckGenerator.visit_stmts
          ((g1.move_to a).pushStr ['[']) body).memory_ptr a
          ++ [.loop [.minus]])], ?_⟩
      simp [BrainfuckGenerator.visit_stmt, hc, hb, h1,
        render_append, render, List.append_assoc]
  | .whileStmt c body, g => by
      rcases hc : g.evaluate_condition c with ⟨a, g1⟩
      obtain ⟨q1, h1⟩ := cond_out c g
      rw [hc] at h1
      simp only at h1
      obtain ⟨qb, hb⟩ := stmts_out body ((g1.move_to a).pushStr ['['])
      rcases hc2 : (BrainfuckGenerator.visit_stmts ((g1.move_to a).pushStr ['['])
          body).evaluate_condition c with ⟨a2, g4⟩
      obtain ⟨q2, h2⟩ := cond_out c (BrainfuckGenerator.visit_stmts
        ((g1.move_to a).pushStr ['[']) body)
      rw [hc2] at h2
      simp only at h2
      refine ⟨q1 ++ moveInstrs g1.memory_ptr a ++
        [.loop (qb ++ q2 ++ copyInstrs g4.memory_ptr a2 a g4.next_temp_addr
          ++ moveInstrs g4.next_temp_addr a)], ?_⟩
      simp [BrainfuckGenerator.visit_stmt, hc, hb, hc2, h1, h2,
        render_append, render, List.append_assoc]

theorem stmts_out : ∀ (l : List Stmt) (g : BrainfuckGenerator),
    ∃ q, (BrainfuckGenerator.visit_stmts g l).output = g.output ++ render q
  | [], g => by
      refine ⟨[], ?_⟩
      simp [BrainfuckGenerator.visit_stmts, render]
  | s :: rest, g => by
      obtain ⟨q1, h1⟩ := stmt_out s g
      obtain ⟨q2, h2⟩ := stmts_out rest (g.visit_stmt s)
      refine ⟨q1 ++ q2, ?_⟩
      simp [BrainfuckGenerator.visit_stmts, h1, h2, render_append,
        List.append_assoc]

end

/-! ## The temp-allocator freshness invariant (for claim C2) -/

/-- All bound variable addresses lie strictly below the temp allocator's
next address, and the model head does not exceed it. -/
def Inv (g : BrainfuckGenerator) : Prop :=
  (∀ a ∈ varAddrs g.vars, a < g.next_temp_addr) ∧
    g.memory_ptr ≤ g.next_temp_addr

theorem varAddrs_insert (v : VarMap) (name : String) (x : Nat) :
    ∀ a ∈ varAddrs (varInsert v name x), a = x ∨ a ∈ varAddrs v := by
  induction v with
  | nil => simp [varInsert, varAddrs]
  | cons p rest ih =>
      intro a ha
      rw [varInsert] at ha
      by_cases hk : p.1 = name
      · rw [show (if p.1 = name then (p.1, x) :: rest
            else (p.1, p.2) :: varInsert rest name x) = (p.1, x) :: rest from
            by rw [if_pos hk]] at ha
        simp [varAddrs] at ha ⊢
        tauto
      · rw [show (if p.1 = name then (p.1, x) :: rest
            else (p.1, p.2) :: varInsert rest name x)
            = (p.1, p.2) :: varInsert rest name x from by rw [if_neg hk]] at ha
        simp [varAddrs] at ha ⊢
        rcases ha with ha | ha
        · tauto
        · rcases ih a (by simpa [varAddrs] using ha) with h | h
          · tauto
          · simp [varAddrs] at h
            tauto

/-- Under the invariant, the temp allocator returns an address not bound
to any variable. -/
theorem get_temp_fresh (g : BrainfuckGenerator) (h : Inv g) :
    (g.get_temp_addr).1 ∉ varAddrs g.vars := by
  intro hmem
  have := h.1 _ hmem
  simp at this

theorem varGet_mem : ∀ (v : VarMap) (name : String) (a : Nat),
    varGet v name = some a → a ∈ varAddrs v := by
  intro v
  induction v with
  | nil =>
      intro name a h
      simp [varGet] at h
  | cons p rest ih =>
      intro name a h
      obtain ⟨k, val⟩ := p
      rw [varGet] at h
      by_cases hk : k = name
      · rw [if_pos hk] at h
        simp [varAddrs]
        left
        first
          | exact Option.some.inj h
          | exact (Option.some.inj h).symm
      · rw [if_neg hk] at h
        simp [varAddrs]
        right
        simpa [varAddrs] using ih name a h

theorem inv_eval (e : Expr) : ∀ (g : BrainfuckGenerator), Inv g →
    Inv (g.evaluate_expression e).2
    ∧ (g.evaluate_expression e).1 < (g.evaluate_expression e).2.next_temp_addr
    ∧ g.next_temp_addr ≤ (g.evaluate_expression e).2.next_temp_addr
    ∧ (g.evaluate_expression e).2.vars = g.vars := by
  induction e with
  | number n =>
      intro g hg
      refine ⟨⟨?_, ?_⟩, ?_, ?_, ?_⟩ <;>
        simp [BrainfuckGenerator.evaluate_expression] <;>
        first
          | (intro a ha; exact lt_of_lt_of_le (hg.1 a ha) (by omega))
          | omega
  | var name =>
      intro g hg
      cases hv : varGet g.vars name with
      | some a =>
          have hmem : a ∈ varAddrs g.vars := varGet_mem g.vars name a hv
          simp only [BrainfuckGenerator.evaluate_expression, hv]
          exact ⟨hg, hg.1 a hmem, le_refl _, trivial⟩
      | none =>
          refine ⟨⟨?_, ?_⟩, ?_, ?_, ?_⟩ <;>
            simp [BrainfuckGenerator.evaluate_expression, hv] <;>
            first
              | (intro a ha; exact lt_of_lt_of_le (hg.1 a ha) (by omega))
              | omega
  | binary l op r ihl ihr =>
      intro g hg
      rcases hl : g.evaluate_expression l with ⟨a1, g1⟩
      rcases hr : g1.evaluate_expression r with ⟨a2, g2⟩
      have h1 := ihl g hg
      rw [hl] at h1
      simp only at h1
      have h2 := ihr g1 h1.1
      rw [hr] at h2
      simp only at h2
      obtain ⟨⟨hb1, hm1⟩, ha1, hn1, hv1⟩ := h1
      obtain ⟨⟨hb2, hm2⟩, ha2, hn2, hv2⟩ := h2
      have hbg : ∀ a ∈ varAddrs g.vars, a < g2.next_temp_addr := by
        intro a ha
        refine lt_of_lt_of_le (hb1 a ?_) hn2
        rw [hv1]
        exact ha
      cases op <;>
        refine ⟨⟨?_, ?_⟩, ?_, ?_, ?_⟩ <;>
          simp [BrainfuckGenerator.evaluate_expression, hl, hr, hv1, hv2] <;>
          first
            | (intro a ha; exact lt_of_lt_of_le (hbg a ha) (by omega))
            | omega

theorem bound_mono {v : VarMap} {n m : Nat}
    (h : ∀ a ∈ varAddrs v, a < n) (hle : n ≤ m) :
    ∀ a ∈ varAddrs v, a < m :=
  fun a ha => lt_of_lt_of_le (h a ha) hle

theorem inv_cond (c : Expr) : ∀ (g : BrainfuckGenerator), Inv g →
    Inv (g.evaluate_condition c).2
    ∧ (g.evaluate_condition c).1 < (g.evaluate_condition c).2.next_temp_addr
    ∧ g.next_temp_addr ≤ (g.evaluate_condition c).2.next_temp_addr
    ∧ (g.evaluate_condition c).2.vars = g.vars := by
  cases c with
  | number n =>
      intro g hg
      simpa [BrainfuckGenerator.evaluate_condition] using
        inv_eval (.number n) g hg
  | var s =>
      intro g hg
      simpa [BrainfuckGenerator.evaluate_condition] using
        inv_eval (.var s) g hg
  | binary l op r =>
      cases op with
      | equal =>
          intro g hg
          rcases hl : g.evaluate_expression l with ⟨a1, g1⟩
          rcases hr : g1.evaluate_expression r with ⟨a2, g2⟩
          have h1 := inv_eval l g hg
          rw [hl] at h1
          simp only at h1
          have h2 := inv_eval r g1 h1.1
          rw [hr] at h2
          simp only at h2
          obtain ⟨⟨hb1, hm1⟩, ha1, hn1, hv1⟩ := h1
          obtain ⟨⟨hb2, hm2⟩, ha2, hn2, hv2⟩ := h2
          have hbg : ∀ a ∈ varAddrs g.vars, a < g2.next_temp_addr := by
            intro a ha
            refine lt_of_lt_of_le (hb1 a ?_) hn2
            rw [hv1]
            exact ha
          refine ⟨⟨?_, ?_⟩, ?_, ?_, ?_⟩ <;>
            simp [BrainfuckGenerator.evaluate_condition, hl, hr, hv1, hv2] <;>
            first
              | (intro a ha; exact lt_of_lt_of_le (hbg a ha) (by omega))
              | omega
      | greater =>
          intro g hg
          simpa [BrainfuckGenerator.evaluate_condition] using inv_eval l g hg
      | add =>
          intro g hg
          simpa [BrainfuckGenerator.evaluate_condition] using
            inv_eval (.binary l .add r) g hg
      | sub =>
          intro g hg
          simpa [BrainfuckGenerator.evaluate_condition] using
            inv_eval (.binary l .sub r) g hg
      | mul =>
          intro g hg
          simpa [BrainfuckGenerator.evaluate_condition] using
            inv_eval (.binary l .mul r) g hg
      | div =>
          intro g hg
          simpa [BrainfuckGenerator.evaluate_condition] using
            inv_eval (.binary l .div r) g hg
      | notEqual =>
          intro g hg
          simpa [BrainfuckGenerator.evaluate_condition] using
            inv_eval (.binary l .notEqual r) g hg
      | less =>
          intro g hg
          simpa [BrainfuckGenerator.evaluate_condition] using
            inv_eval (.binary l .less r) g hg

/-- The per-statement invariant: `Inv` plus a strictly free model head. -/
def SInv (g : BrainfuckGenerator) : Prop :=
  Inv g ∧ g.memory_ptr < g.next_temp_addr

mutual

theorem inv_stmt : ∀ (s : Stmt) (g : BrainfuckGenerator), SInv g →
    SInv (g.visit_stmt s)
    ∧ g.next_temp_addr ≤ (g.visit_stmt s).next_temp_addr
  | .letStmt name mu value, g => by
      intro hs
      obtain ⟨hg, hmp⟩ := hs
      rcases he : ((g.allocate_variable name).2).evaluate_expression value
        with ⟨va, g2⟩
      have hA : Inv (g.allocate_variable name).2 := by
        refine ⟨?_, ?_⟩
        · simp only [allocate_variable_vars, allocate_variable_next_temp_addr]
          intro a ha
          rcases varAddrs_insert g.vars name g.memory_ptr a ha with h | h
          · omega
          · exact hg.1 a h
        · simp
          omega
      have h2 := inv_eval value _ hA
      rw [he] at h2
      simp only at h2
      obtain ⟨⟨hb2, hm2⟩, ha2, hn2, hv2⟩ := h2
      simp only [allocate_variable_next_temp_addr] at hn2
      rw [BrainfuckGenerator.visit_stmt]
      rw [show g.allocate_variable name
          = (g.memory_ptr, (g.allocate_variable name).2) from rfl]
      simp only
      rw [he]
      simp only
      refine ⟨⟨⟨?_, ?_⟩, ?_⟩, ?_⟩
      · simp only [copy_value_vars, copy_value_next_temp_addr, hv2,
          allocate_variable_vars]
        intro a ha
        rcases varAddrs_insert g.vars name g.memory_ptr a ha with h | h
        · omega
        · have := hg.1 a h
          omega
      · simp only [copy_value_memory_ptr, copy_value_next_temp_addr]
        omega
      · simp only [copy_value_memory_ptr, copy_value_next_temp_addr]
        omega
      · simp only [copy_value_next_temp_addr]
        omega
  | .assign name value, g => by
      intro hs
      obtain ⟨hg, hmp⟩ := hs
      cases hv : varGet g.vars name with
      | none =>
          rw [BrainfuckGenerator.visit_stmt, hv]
          exact ⟨⟨hg, hmp⟩, le_refl _⟩
      | some addr =>
          rcases he : g.evaluate_expression value with ⟨va, g2⟩
          have h2 := inv_eval value g hg
          rw [he] at h2
          simp only at h2
          obtain ⟨⟨hb2, hm2⟩, ha2, hn2, hv2⟩ := h2
          rw [BrainfuckGenerator.visit_stmt, hv, he]
          simp only
          refine ⟨⟨⟨?_, ?_⟩, ?_⟩, ?_⟩
          · simp only [copy_value_vars, copy_value_next_temp_addr, hv2]
            intro a ha
            have := hg.1 a ha
            omega
          · simp only [copy_value_memory_ptr, copy_value_next_temp_addr]
            omega
          · simp only [copy_value_memory_ptr, copy_value_next_temp_addr]
            omega
          · simp only [copy_value_next_temp_addr]
            omega
  | .print value, g => by
      intro hs
      obtain ⟨hg, hmp⟩ := hs
      rcases he : g.evaluate_expression value with ⟨a, g1⟩
      have h1 := inv_eval value g hg
      rw [he] at h1
      simp only at h1
      obtain ⟨⟨hb1, hm1⟩, ha1, hn1, hv1⟩ := h1
      rw [BrainfuckGenerator.visit_stmt, he]
      simp only
      refine ⟨⟨⟨?_, ?_⟩, ?_⟩, ?_⟩ <;>
        simp only [pushStr_vars, pushStr_memory_ptr, pushStr_next_temp_addr,
          move_to_vars, move_to_memory_ptr, move_to_next_temp_addr]
      · exact hb1
      · omega
      · omega
      · omega
  | .ifStmt c body, g => by
      intro hs
      obtain ⟨hg, hmp⟩ := hs
      rcases hc : g.evaluate_condition c with ⟨a, g1⟩
      have h1 := inv_cond c g hg
      rw [hc] at h1
      simp only at h1
      obtain ⟨⟨hb1, hm1⟩, ha1, hn1, hv1⟩ := h1
      have hS2 : SInv ((g1.move_to a).pushStr ['[']) := by
        refine ⟨⟨?_, ?_⟩, ?_⟩ <;>
          simp only [pushStr_vars, pushStr_memory_ptr, pushStr_next_temp_addr,
            move_to_vars, move_to_memory_ptr, move_to_next_temp_addr]
        · exact hb1
        · omega
        · omega
      obtain ⟨⟨⟨hb3, hm3⟩, hmp3⟩, hn3⟩ := inv_stmts body _ hS2
      simp only [pushStr_next_temp_addr, move_to_next_temp_addr] at hn3
      rw [BrainfuckGenerator.visit_stmt, hc]
      simp only
      refine ⟨⟨⟨?_, ?_⟩, ?_⟩, ?_⟩ <;>
        simp only [pushStr_vars, pushStr_memory_ptr, pushStr_next_temp_addr,
          clear_cell_vars, clear_cell_memory_ptr, clear_cell_next_temp_addr,
          move_to_vars, move_to_memory_ptr, move_to_next_temp_addr]
      · exact hb3
      · omega
      · omega
      · omega
  | .whileStmt c body, g => by
      intro hs
      obtain ⟨hg, hmp⟩ := hs
      rcases hc : g.evaluate_condition c with ⟨a, g1⟩
      have h1 := inv_cond c g hg
      rw [hc] at h1
      simp only at h1
      obtain ⟨⟨hb1, hm1⟩, ha1, hn1, hv1⟩ := h1
      have hS2 : SInv ((g1.move_to a).pushStr ['[']) := by
        refine ⟨⟨?_, ?_⟩, ?_⟩ <;>
          simp only [pushStr_vars, pushStr_memory_ptr, pushStr_next_temp_addr,
            move_to_vars, move_to_memory_ptr, move_to_next_temp_addr]
        · exact hb1
        · omega
        · omega
      obtain ⟨⟨hI3, hmp3⟩, hn3⟩ := inv_stmts body _ hS2
      simp only [pushStr_next_temp_addr, move_to_next_temp_addr] at hn3
      rcases hc2 : (BrainfuckGenerator.visit_stmts ((g1.move_to a).pushStr ['['])
          body).evaluate_condition c with ⟨a2, g4⟩
      have h4 := inv_cond c _ hI3
      rw [hc2] at h4
      simp only at h4
      obtain ⟨⟨hb4, hm4⟩, ha4, hn4, hv4⟩ := h4
      rw [BrainfuckGenerator.visit_stmt, hc]
      simp only
      rw [hc2]
      simp only
      refine ⟨⟨⟨?_, ?_⟩, ?_⟩, ?_⟩ <;>
        simp only [pushStr_vars, pushStr_memory_ptr, pushStr_next_temp_addr,
          copy_value_vars, copy_value_memory_ptr, copy_value_next_temp_addr,
          move_to_vars, move_to_memory_ptr, move_to_next_temp_addr]
      · intro x hx
        have := hb4 x hx
        omega
      · omega
      · omega
      · omega

theorem inv_stmts : ∀ (l : List Stmt) (g : BrainfuckGenerator), SInv g →
    SInv (BrainfuckGenerator.visit_stmts g l)
    ∧ g.next_temp_addr ≤ (BrainfuckGenerator.visit_stmts g l).next_temp_addr
  | [], g => by
      intro hg
      rw [BrainfuckGenerator.visit_stmts]
      exact ⟨hg, le_refl _⟩
  | s :: rest, g => by
      intro hg
      rw [BrainfuckGenerator.visit_stmts]
      obtain ⟨h1, hn1⟩ := inv_stmt s g hg
      obtain ⟨h2, hn2⟩ := inv_stmts rest _ h1
      exact ⟨h2, le_trans hn1 hn2⟩

end

/-! ## Characterizing lexer failures (for claim C8) -/

/-- The characters the lexer's dispatch recognizes as operators or
delimiters. -/
def recognizedChar (c : Char) : Bool :=
  c = '=' || c = '!' || (singleCharToken c).isSome

/-- A lexer state at which the next dispatch fails: the current
character opens no token, or it opens a digit run whose value overflows
`i32`. -/
def BadAt (lx : Lexer) : Prop :=
  ∃ c tail, (lx.skip_whitespace).rest = c :: tail ∧
    ((recognizedChar c = false ∧ c.isDigit = false ∧
        rustIsAlphabetic c = false ∧ c ≠ '_')
     ∨ (c.isDigit = true ∧
        i32Max < digitsVal ((lx.skip_whitespace).take_digits).1))

theorem next_token_error_iff (lx : Lexer) :
    (∃ e, lx.next_token = .error e) ↔ BadAt lx := by
  rw [Lexer.next_token, BadAt]
  simp only
  rcases hs : (Lexer.skip_whitespace lx).rest with _ | ⟨c, tail⟩ <;>
    simp only [Lexer.current_char, hs, List.head?_nil, List.head?_cons]
  · constructor
    · rintro ⟨e, he⟩
      cases he
    · rintro ⟨c, tail, h, -⟩
      cases h
  · constructor
    · rintro ⟨e, he⟩
      refine ⟨c, tail, rfl, ?_⟩
      by_cases h1 : c = '='
      · rw [if_pos h1] at he
        cases he
      · rw [if_neg h1] at he
        by_cases h2 : c = '!'
        · rw [if_pos h2] at he
          cases he
        · rw [if_neg h2] at he
          rcases hsc : singleCharToken c with _ | t
          · rw [hsc] at he
            by_cases hd : c.isDigit
            · rw [if_pos hd] at he
              right
              refine ⟨hd, ?_⟩
              unfold Lexer.read_number at he
              rcases htd : (Lexer.skip_whitespace lx).take_digits with ⟨ds, lxd⟩
              rw [htd] at he
              simp only at he
              split at he
              · rename_i t2 lx2 heq
                split at heq <;> cases heq
                cases he
              · rename_i e2 heq
                split at heq
                · cases heq
                · rename_i hgt
                  simp only [htd]
                  omega
            · rw [if_neg hd] at he
              by_cases hid : (rustIsAlphabetic c || c = '_') = true
              · rw [if_pos hid] at he
                cases he
              · rw [if_neg hid] at he
                left
                simp only [Bool.or_eq_true, decide_eq_true_eq, not_or] at hid
                refine ⟨?_, by simpa using hd, ?_, ?_⟩
                · simp [recognizedChar, h1, h2, hsc]
                · simpa using hid.1
                · exact hid.2
          · rw [hsc] at he
            cases he
    · rintro ⟨c1, tail1, hct, hbad⟩
      injection hct with hc1 ht1
      subst hc1
      subst ht1
      rcases hbad with ⟨hrec, hd, hal, hun⟩ | ⟨hd, hof⟩
      · have h1 : ¬ c = '=' := by
          intro h
          simp [recognizedChar, h] at hrec
        have h2 : ¬ c = '!' := by
          intro h
          simp [recognizedChar, h] at hrec
        have hsc : singleCharToken c = none := by
          rcases hx : singleCharToken c with _ | t
          · rfl
          · simp [recognizedChar, hx] at hrec
        rw [if_neg h1, if_neg h2, hsc, if_neg (by simpa using hd),
          if_neg (by simp [hal, hun])]
        exact ⟨_, rfl⟩
      · have h1 : ¬ c = '=' := by
          intro h
          rw [h] at hd
          simp [Char.isDigit] at hd
        have h2 : ¬ c = '!' := by
          intro h
          rw [h] at hd
          simp [Char.isDigit] at hd
        have hsc : singleCharToken c = none := by
          have hdig := hd
          rcases hx : singleCharToken c with _ | t
          · rfl
          · exfalso
            unfold singleCharToken at hx
            split_ifs at hx <;>
              simp_all [Char.isDigit]
        rw [if_neg h1, if_neg h2, hsc, if_pos hd]
        unfold Lexer.read_number
        rcases htd : (Lexer.skip_whitespace lx).take_digits with ⟨ds, lxd⟩
        simp only
        rw [if_neg (by rw [htd] at hof; simp only at hof; omega)]
        exact ⟨_, rfl⟩

/-- The lexer states visited by the tokenize loop. -/
inductive Reaches : Lexer → Lexer → Prop where
  | refl (lx : Lexer) : Reaches lx lx
  | step {lx lx1 lx2 : Lexer} {tok : Token} :
      lx.next_token = .ok (some tok, lx1) → tok ≠ .Eof →
      Reaches lx1 lx2 → Reaches lx lx2

/-- The tokenize loop fails with `e` exactly when some visited lexer
state's `next_token` fails with `e`. -/
theorem tokenize_loop_error : ∀ (lx : Lexer) (acc : List Token)
    (e : TranspilerError),
    Lexer.tokenize_loop lx acc = .error e ↔
      ∃ lx1, Reaches lx lx1 ∧ lx1.next_token = .error e := by
  intro lx acc e
  rw [Lexer.tokenize_loop]
  split
  case _ e1 heq =>
    constructor
    · intro h
      cases h
      exact ⟨lx, .refl lx, heq⟩
    · rintro ⟨lx1, hre, he1⟩
      cases hre with
      | refl => rw [heq] at he1; cases he1; rfl
      | step hstep _ _ => rw [heq] at hstep; cases hstep
  case _ tok lx1 heq =>
    split
    case _ htok =>
      subst htok
      constructor
      · intro h
        cases h
      · rintro ⟨lx2, hre, he2⟩
        cases hre with
        | refl => rw [heq] at he2; cases he2
        | step hstep htok2 _ =>
            rw [heq] at hstep
            simp only [Except.ok.injEq, Prod.mk.injEq, Option.some.injEq] at hstep
            exact absurd hstep.1.symm htok2
    case _ htok =>
      rw [tokenize_loop_error lx1 (acc ++ [tok]) e]
      constructor
      · rintro ⟨lx2, hre, he2⟩
        exact ⟨lx2, .step heq htok hre, he2⟩
      · rintro ⟨lx2, hre, he2⟩
        cases hre with
        | refl => rw [heq] at he2; cases he2
        | step hstep htok2 hre2 =>
            rw [heq] at hstep
            simp only [Except.ok.injEq, Prod.mk.injEq, Option.some.injEq] at hstep
            obtain ⟨ht, hlx⟩ := hstep
            rw [← hlx] at hre2
            exact ⟨lx2, hre2, he2⟩
  case _ heq =>
    constructor
    · intro h
      cases h
    · rintro ⟨lx2, hre, he2⟩
      cases hre with
      | refl => rw [heq] at he2; cases he2
      | step hstep _ _ => rw [heq] at hstep; cases hstep
termination_by lx _ _ => lx.rest.length
decreasing_by exact Lexer.len_next_token _ _ _ (by assumption) (by assumption)

/-- Characters collected by the identifier loop are alphanumerics or
underscores. -/
theorem takeIdentGo_chars : ∀ (r : List Char) (p : Nat),
    ∀ x ∈ (Lexer.takeIdentGo r p).1, rustIsAlphanumeric x = true ∨ x = '_' := by
  intro r
  induction r with
  | nil =>
      intro p x hx
      simp [Lexer.takeIdentGo] at hx
  | cons c tail ih =>
      intro p x hx
      rw [Lexer.takeIdentGo] at hx
      by_cases hc : (rustIsAlphanumeric c || c = '_') = true
      · rw [if_pos hc] at hx
        simp only [List.mem_cons] at hx
        rcases hx with rfl | hx
        · simpa using hc
        · exact ih (p + 1) x hx
      · rw [if_neg hc] at hx
        simp at hx

theorem take_ident_chars : ∀ (r : List Char) (p : Nat),
    ∀ x ∈ (Lexer.take_ident ⟨r, p⟩).1, rustIsAlphanumeric x = true ∨ x = '_' :=
  fun r p => takeIdentGo_chars r p

/-- Every `Identifier` token the lexer produces matches
`[A-Za-z_][A-Za-z0-9_]*` (with the alphabetic classes as in the ASCII
embedding of the Rust predicates). -/
theorem next_token_identifier_shape (lx : Lexer) (name : String) (lx1 : Lexer)
    (h : lx.next_token = .ok (some (.Identifier name), lx1)) :
    ∃ c cs, name = String.mk (c :: cs)
      ∧ (rustIsAlphabetic c = true ∨ c = '_')
      ∧ ∀ x ∈ cs, rustIsAlphanumeric x = true ∨ x = '_' := by
  rw [Lexer.next_token] at h
  simp only at h
  rcases hs : (Lexer.skip_whitespace lx) with ⟨rs, ps⟩
  rw [hs] at h
  cases rs with
  | nil =>
      simp only [Lexer.current_char, List.head?_nil] at h
      cases h
  | cons c tail =>
      simp only [Lexer.current_char, List.head?_cons] at h
      by_cases h1 : c = '='
      · rw [if_pos h1] at h
        simp only [Lexer.handle_equals] at h
        split at h <;> cases h
      · rw [if_neg h1] at h
        by_cases h2 : c = '!'
        · rw [if_pos h2] at h
          simp only [Lexer.handle_exclamation] at h
          split at h <;> cases h
        · rw [if_neg h2] at h
          rcases hsc : singleCharToken c with _ | t
          · rw [hsc] at h
            by_cases hd : c.isDigit
            · rw [if_pos hd] at h
              unfold Lexer.read_number at h
              rcases htd : Lexer.take_digits ⟨c :: tail, ps⟩ with ⟨ds, lxd⟩
              rw [htd] at h
              simp only at h
              split at h
              · rename_i t2 lx2 heq
                split at heq <;> cases heq
                cases h
              · cases h
            · rw [if_neg hd] at h
              by_cases hid : (rustIsAlphabetic c || c = '_') = true
              · rw [if_pos hid] at h
                unfold Lexer.read_identifier at h
                have hti : Lexer.take_ident ⟨c :: tail, ps⟩
                    = (c :: (Lexer.take_ident ⟨tail, ps + 1⟩).1,
                       (Lexer.take_ident ⟨tail, ps + 1⟩).2) := by
                  show Lexer.takeIdentGo (c :: tail) ps
                      = (c :: (Lexer.takeIdentGo tail (ps + 1)).1,
                         (Lexer.takeIdentGo tail (ps + 1)).2)
                  rw [Lexer.takeIdentGo]
                  have hb : (rustIsAlphanumeric c || c = '_') = true := by
                    simp only [rustIsAlphabetic, Bool.or_eq_true,
                      decide_eq_true_eq] at hid
                    simp only [rustIsAlphanumeric, Bool.or_eq_true,
                      decide_eq_true_eq]
                    tauto
                  rw [if_pos hb]
                rw [hti] at h
                simp only at h
                split_ifs at h <;> simp at h
                obtain ⟨hname, -⟩ := h
                refine ⟨c, (Lexer.take_ident ⟨tail, ps + 1⟩).1, ?_,
                  by simpa using hid, ?_⟩
                · first
                    | exact hname.symm
                    | exact hname
                · intro x hx
                  exact take_ident_chars tail (ps + 1) x hx
              · rw [if_neg hid] at h
                cases h
          · rw [hsc] at h
            simp only [Except.ok.injEq, Prod.mk.injEq, Option.some.injEq] at h
            exfalso
            unfold singleCharToken at hsc
            split_ifs at hsc <;> simp_all

/-! ## Decidable projections of fuel-bounded executions -/

/-- The value of cell `i` when the result is a normal stop. -/
def resCell (r : ExecRes) (i : Nat) : Option Nat :=
  match r with
  | .ok s => some (s.tape i).val
  | _ => none

/-- The head position when the result is a normal stop. -/
def resHead (r : ExecRes) : Option Nat :=
  match r with
  | .ok s => some s.head
  | _ => none

/-- The bytes written when the result is a normal stop. -/
def resOut (r : ExecRes) : Option (List Nat) :=
  match r with
  | .ok s => some (s.output.map Fin.val)
  | _ => none

/-- Whether the result is a head underflow. -/
def resIsUnderflow (r : ExecRes) : Bool :=
  match r with
  | .underflow => true
  | _ => false

theorem exec_ok_of_resCell {n : Nat} {p : List BfInstr} {s : BfState}
    {i k : Nat} (h : resCell (exec n p s) i = some k) :
    ∃ t, exec n p s = .ok t ∧ (t.tape i).val = k := by
  rcases hx : exec n p s with t | _ | _ <;> rw [hx] at h <;>
    simp [resCell] at h
  exact ⟨t, rfl, h⟩

theorem no_ok_of_underflow {n : Nat} {p : List BfInstr} {s : BfState}
    (h : resIsUnderflow (exec n p s) = true) :
    ∀ (m : Nat) (t : BfState), exec m p s ≠ .ok t := by
  intro m t hm
  rcases hx : exec n p s with t1 | _ | _ <;> rw [hx] at h <;>
    simp [resIsUnderflow] at h
  have h1 := exec_mono m n p s _ hm (by simp)
  have h2 := exec_mono n m p s _ hx (by simp)
  rw [Nat.add_comm n m] at h2
  rw [h1] at h2
  cases h2

/-- No instruction tree rendering to `cs` can run to completion when a
parse of `cs` provably underflows. -/
theorem strRuns_none_of_underflow {p0 : List BfInstr} {n : Nat}
    {cs : List Char} {s : BfState} (hr : render p0 = cs)
    (hu : resIsUnderflow (exec n p0 s) = true) :
    ∀ s1, ¬ StrRuns cs s s1 := by
  rintro s1 ⟨q, hq, m, hm⟩
  rw [← hr] at hq
  rw [render_inj q p0 hq] at hm
  exact no_ok_of_underflow hu m s1 hm

/-- Determinism transfer: any `StrRuns` result agrees with a concrete
fuel-bounded run of any tree rendering to the same text. -/
theorem strRuns_val_eq {p0 : List BfInstr} {n : Nat} {cs : List Char}
    {s s1 : BfState} {i k : Nat} (hr : render p0 = cs)
    (hc : resCell (exec n p0 s) i = some k) (h : StrRuns cs s s1) :
    (s1.tape i).val = k := by
  obtain ⟨q, hq, m, hm⟩ := h
  rw [← hr] at hq
  rw [render_inj q p0 hq] at hm
  obtain ⟨t, ht, hk⟩ := exec_ok_of_resCell hc
  rw [exec_det hm ht]
  exact hk

/-! ## Soundness of the Brainfuck text parser, and single steps of the
tokenize loop (used to evaluate concrete instances of the claims) -/

/-- A successful `parseChunk` renders back to the consumed prefix. -/
theorem parseChunk_render : ∀ (fuel : Nat) (cs : List Char)
    (p : List BfInstr) (rem : List Char),
    parseChunk fuel cs = some (p, rem) → render p ++ rem = cs := by
  intro fuel
  induction fuel with
  | zero =>
      intro cs p rem h
      cases cs with
      | nil =>
          rw [parseChunk] at h
          injection h with h1
          injection h1 with hp hr
          subst hp
          subst hr
          simp [render]
      | cons c rest =>
          rw [parseChunk] at h
          cases h
  | succ fuel ih =>
      intro cs p rem h
      cases cs with
      | nil =>
          rw [parseChunk] at h
          injection h with h1
          injection h1 with hp hr
          subst hp
          subst hr
          simp [render]
      | cons c rest =>
          rw [parseChunk] at h
          by_cases hc : c = ']'
          · rw [if_pos hc] at h
            injection h with h1
            injection h1 with hp hr
            subst hp
            subst hr
            simp [render, hc]
          · rw [if_neg hc] at h
            by_cases hb : c = '['
            · rw [if_pos hb] at h
              subst hb
              split at h
              · rename_i body rest1 heq1
                split at h
                · rename_i tail rem1 heq2
                  injection h with h1
                  injection h1 with hp hr
                  subst hp
                  subst hr
                  have e1 := ih rest body (']' :: rest1) heq1
                  have e2 := ih rest1 tail rem1 heq2
                  rw [render, ← e1, ← e2]
                  simp [List.append_assoc]
                · cases h
              · cases h
            · rw [if_neg hb] at h
              split at h
              · rename_i tail rem1 heq1
                have e1 := ih rest tail rem1 heq1
                split_ifs at h with hc1 hc2 hc3 hc4 hc5 hc6
                all_goals first
                  | (injection h with h1
                     injection h1 with hp hr
                     subst hp
                     subst hr
                     rw [render]
                     simp_all)
                  | cases h
              · cases h

/-- A successful parse is reported with an empty remainder. -/
theorem parseBf_render {cs : List Char} {p : List BfInstr}
    (h : parseBf cs = some p) : render p = cs := by
  rw [parseBf] at h
  split at h
  · rename_i p1 heq
    injection h with h1
    subst h1
    simpa using parseChunk_render (cs.length + 1) cs p1 [] heq
  · cases h

/-- When `parseBf` succeeds, it returns its own default-stripped value. -/
theorem parseBf_some {cs : List Char} (h : (parseBf cs).isSome = true) :
    parseBf cs = some ((parseBf cs).getD []) := by
  rcases hx : parseBf cs with _ | p
  · rw [hx] at h
    simp at h
  · rfl

/-- One failing step of the tokenize loop. -/
theorem tokenize_loop_step_err (lx : Lexer) (acc : List Token)
    (e : TranspilerError) (h : lx.next_token = .error e) :
    Lexer.tokenize_loop lx acc = .error e := by
  rw [Lexer.tokenize_loop]
  split
  · rename_i e1 heq
    rw [h] at heq
    injection heq with he
    rw [he]
  · rename_i tok1 lx2 heq
    rw [h] at heq
    cases heq
  · rename_i lx2 heq
    rw [h] at heq
    cases heq

/-- One successful non-Eof step of the tokenize loop. -/
theorem tokenize_loop_step_tok (lx lx1 : Lexer) (tok : Token)
    (acc : List Token) (h : lx.next_token = .ok (some tok, lx1))
    (hne : tok ≠ .Eof) :
    Lexer.tokenize_loop lx acc = Lexer.tokenize_loop lx1 (acc ++ [tok]) := by
  rw [Lexer.tokenize_loop]
  split
  · rename_i e1 heq
    rw [h] at heq
    cases heq
  · rename_i tok1 lx2 heq
    rw [h] at heq
    injection heq with h1
    injection h1 with h2 h3
    injection h2 with h4
    subst h4
    subst h3
    rw [dif_neg hne]
  · rename_i lx2 heq
    rw [h] at heq
    injection heq with h1
    injection h1 with h2 h3
    cases h2

/-- `next_token` errors always carry a position: both error sites use
`with_position`. -/
theorem next_token_error_position (lx : Lexer) (e : TranspilerError)
    (h : lx.next_token = .error e) : e.position ≠ none := by
  rw [Lexer.next_token] at h
  rcases hs : (Lexer.skip_whitespace lx).rest with _ | ⟨c, tail⟩ <;>
    simp only [Lexer.current_char, hs, List.head?_nil, List.head?_cons] at h
  · cases h
  · by_cases h1 : c = '='
    · rw [if_pos h1] at h
      cases h
    · rw [if_neg h1] at h
      by_cases h2 : c = '!'
      · rw [if_pos h2] at h
        cases h
      · rw [if_neg h2] at h
        rcases hsc : singleCharToken c with _ | t
        · rw [hsc] at h
          by_cases hd : c.isDigit
          · rw [if_pos hd] at h
            unfold Lexer.read_number at h
            rcases htd : (Lexer.skip_whitespace lx).take_digits with ⟨ds, lxd⟩
            rw [htd] at h
            simp only at h
            split at h
            · rename_i t2 lx2 heq
              split at heq <;> cases heq
              cases h
            · rename_i e2 heq
              split at heq
              · cases heq
              · injection heq with he2
                injection h with he
                rw [← he, ← he2]
                simp [TranspilerError.with_position]
          · rw [if_neg hd] at h
            by_cases hid : (rustIsAlphabetic c || c = '_') = true
            · rw [if_pos hid] at h
              cases h
            · rw [if_neg hid] at h
              injection h with he
              rw [← he]
              simp [TranspilerError.with_position]
        · rw [hsc] at h
          cases h

/-! ## The frozen claims (concrete programs and evaluations) -/

/-- The source program `let x = 65; print(x);`. -/
def prog1 : Program := [.letStmt ("x") false (.number 65), .print (.var ("x"))]

/-- The source program `let x = 5; print(x); let y = 6;`. -/
def prog2 : Program :=
  [.letStmt ("x") false (.number 5), .print (.var ("x")),
   .letStmt ("y") false (.number 6)]

/-- A parse of the Brainfuck text emitted for `prog1`. -/
def c3prog : List BfInstr := (parseBf (genOutput prog1)).getD []

/-- The generator after `set_value(0, 16)` from a fresh state. -/
def c5gen : BrainfuckGenerator := BrainfuckGenerator.new.set_value 0 16

/-- A dirty tape: the scratch cell 1 holds 1, everything else 0. -/
def c5tape : Nat → Fin 256 := fun i => if i = 1 then 1 else 0

/-- A parse of the `set_value(0, 16)` fragment. -/
def c5prog : List BfInstr := (parseBf c5gen.output).getD []

/-- The start state of the C5 counterexample run. -/
def c5init : BfState := ⟨c5tape, 0, []⟩

/-- The token stream the lexer would have to produce for `1 + 2 * 3`. -/
def c7tokens : List Token :=
  [.Number 1, .Plus, .Number 2, .Multiply, .Number 3, .Eof]

/-- A generator with one variable `x` at cell 0 (for the C10 witness). -/
def c10g : BrainfuckGenerator :=
  (BrainfuckGenerator.new.allocate_variable ("x")).2

/-- A tape with cell 0 holding 5 (for the C10 witness). -/
def c10t : Nat → Fin 256 := fun i => if i = 0 then 5 else 0

/-- Scanning `1 + 2 * 3` from the start yields `Number 1`. -/
theorem c7nt1 : Lexer.next_token (Lexer.new (String.toList ("1 + 2 * 3")))
    = .ok (some (.Number 1), ⟨[' ', '+', ' ', '2', ' ', '*', ' ', '3'], 1⟩) := by
  decide

/-- The second token of `1 + 2 * 3` is `Plus`. -/
theorem c7nt2 : Lexer.next_token ⟨[' ', '+', ' ', '2', ' ', '*', ' ', '3'], 1⟩
    = .ok (some .Plus, ⟨[' ', '2', ' ', '*', ' ', '3'], 3⟩) := by
  decide

/-- The third token of `1 + 2 * 3` is `Number 2`. -/
theorem c7nt3 : Lexer.next_token ⟨[' ', '2', ' ', '*', ' ', '3'], 3⟩
    = .ok (some (.Number 2), ⟨[' ', '*', ' ', '3'], 5⟩) := by
  decide

/-- Scanning on from position 5 of `1 + 2 * 3` hits the unhandled `*`. -/
theorem c7nt4 : Lexer.next_token ⟨[' ', '*', ' ', '3'], 5⟩
    = .error ⟨"Unexpected character: '*'", some 6⟩ := by
  decide

/-- The digit run of `2147483648` overflows `i32`, a `LexError` at
position 10. -/
theorem c8overflow : tokenize (String.toList ("2147483648"))
    = .error ⟨"Invalid number: 2147483648", some 10⟩ := by
  rw [tokenize]
  exact tokenize_loop_step_err _ _ _ (by decide)

/-- Tokenizing `@` fails at position 0. -/
theorem c8at : tokenize (String.toList ("@"))
    = .error ⟨"Unexpected character: '@'", some 0⟩ := by
  rw [tokenize]
  exact tokenize_loop_step_err _ _ _ (by decide)

set_option maxRecDepth 10000 in
/-- The text emitted for `prog1` parses back to `c3prog`. -/
theorem c3prog_render : render c3prog = genOutput prog1 :=
  parseBf_render (parseBf_some (by decide))

set_option maxRecDepth 10000 in
/-- The `set_value(0, 16)` fragment parses back to `c5prog`. -/
theorem c5prog_render : render c5prog = c5gen.output :=
  parseBf_render (parseBf_some (by decide))

/-! ## The frozen claims -/

set_option maxRecDepth 10000 in
/-- Claim C1 (refuted; code bug): the generator's model of the head does
NOT track the runtime head.  `allocate_variable` bumps `memory_ptr` — the
same field `move_to` reads as head model — while emitting nothing, so
after compiling `let x = 65; print(x);` the model claims head 0 while the
emitted text has net head displacement −1 (one cell LEFT of the start). -/
theorem c1_head_model_desync :
    (BrainfuckGenerator.new.allocate_variable ("x")).2.output
        = BrainfuckGenerator.new.output
    ∧ (BrainfuckGenerator.new.allocate_variable ("x")).2.memory_ptr
        = BrainfuckGenerator.new.memory_ptr + 1
    ∧ (genState prog1).memory_ptr = 0
    ∧ netMoves (genOutput prog1) = -1 := by
  exact ⟨rfl, rfl, by decide, by decide⟩

set_option maxRecDepth 10000 in
/-- Claim C2, counterexample: compiling `let x = 5; print(x); let y = 6;`
binds the distinct names `x` and `y` to the SAME address 0, because
`move_to` clobbers the shared `memory_ptr` counter between the two
allocations; named addresses are not unique. -/
theorem c2_unique_addresses_cex :
    varGet (genState prog2).vars ("x") = some 0
    ∧ varGet (genState prog2).vars ("y") = some 0 := by
  exact ⟨by decide, by decide⟩

/-- Claim C2 (amended): the temp-allocator half of the claim holds and
uniqueness of named addresses is dropped (refuted above).  Under the
allocator invariant `Inv` — every named address strictly below
`next_temp_addr`, model head not above it — `get_temp_addr` never returns
an address bound to a named variable; the strengthened invariant `SInv`
holds in the fresh generator and is preserved by every statement list. -/
theorem c2_temp_fresh_invariant :
    (∀ g : BrainfuckGenerator, Inv g → (g.get_temp_addr).1 ∉ varAddrs g.vars)
    ∧ SInv BrainfuckGenerator.new
    ∧ ∀ (l : List Stmt) (g : BrainfuckGenerator), SInv g →
        SInv (BrainfuckGenerator.visit_stmts g l) := by
  refine ⟨fun g h => get_temp_fresh g h, ⟨⟨?_, by decide⟩, by decide⟩,
    fun l g h => (inv_stmts l g h).1⟩
  intro a ha
  simp [BrainfuckGenerator.new, varAddrs] at ha

/-- Witness for C2: the theorem applied at the fresh generator and at the
program `prog2`. -/
theorem c2_temp_fresh_invariant_witness :
    (BrainfuckGenerator.new.get_temp_addr).1
        ∉ varAddrs BrainfuckGenerator.new.vars
    ∧ SInv (BrainfuckGenerator.visit_stmts BrainfuckGenerator.new prog2) :=
  ⟨c2_temp_fresh_invariant.1 _ c2_temp_fresh_invariant.2.1.1,
   c2_temp_fresh_invariant.2.2 prog2 _ c2_temp_fresh_invariant.2.1⟩

set_option maxRecDepth 10000 in
/-- Claim C3 (refuted; code bug): the text emitted for
`let x = 65; print(x);` does contain exactly one `.`, but no run of that
text on the canonical machine (all cells 0, head 0) terminates normally:
the head-model desync of C1 drives the head left of cell 0, so the
interpreter underflows and nothing is ever printed — in particular the
byte 0x41 is not written. -/
theorem c3_prog1_underflows :
    (genOutput prog1).count '.' = 1
    ∧ ∀ (p : List BfInstr) (s1 : BfState),
        render p = genOutput prog1 → ¬ Runs p initState s1 := by
  refine ⟨by decide, fun p s1 hr hR => ?_⟩
  exact @strRuns_none_of_underflow c3prog 2000 (genOutput prog1) initState
    c3prog_render (by decide) s1 ⟨p, hr, hR⟩

set_option maxRecDepth 10000 in
/-- Witness for C3: the parsed tree `c3prog` renders to the emitted text,
and the theorem applied to it shows it cannot run to completion. -/
theorem c3_prog1_underflows_witness :
    render c3prog = genOutput prog1 ∧ ¬ Runs c3prog initState initState :=
  ⟨c3prog_render, c3_prog1_underflows.2 c3prog initState c3prog_render⟩

/-- Claim C4 (confirmed): `generate` returns a Brainfuck string in which
every prefix holds at least as many `[` as `]`, with equal totals over the
whole string. -/
theorem c4_brackets_balanced (program : Program) :
    ∃ s, (BrainfuckGenerator.new.generate program).1 = .ok s
      ∧ (∀ n, (s.take n).count ']' ≤ (s.take n).count '[')
      ∧ s.count '[' = s.count ']' := by
  obtain ⟨q, hq⟩ := stmts_out program BrainfuckGenerator.new
  have hout : genOutput program = render q := by
    rw [genOutput, BrainfuckGenerator.visit_program, hq]
    rfl
  refine ⟨genOutput program, rfl, ?_, ?_⟩
  · rw [hout]
    exact (render_balanced q).1
  · rw [hout]
    exact (render_balanced q).2

set_option maxRecDepth 10000 in
/-- Claim C5, counterexample: from a tape whose scratch cell `addr+1`
holds 1, the fragment emitted by `set_value(0, 16)` (the `v ≥ 10`
square-decomposition path) terminates with cell 0 holding 17, not 16: the
fragment multiplies into the scratch cell without clearing it first, so
the claim fails for arbitrary prior contents of `addr+1`. -/
theorem c5_set_value_cex :
    (∃ s1, StrRuns c5gen.output c5init s1 ∧ (s1.tape 0).val = 17)
    ∧ ¬ ∃ s1, StrRuns c5gen.output c5init s1 ∧ (s1.tape 0).val = 16 := by
  have hc : resCell (exec 500 c5prog c5init) 0 = some 17 := by decide
  constructor
  · obtain ⟨u, hu, hk⟩ := exec_ok_of_resCell hc
    exact ⟨u, ⟨c5prog, c5prog_render, 500, hu⟩, hk⟩
  · rintro ⟨s1, hrun, hv⟩
    have h17 := strRuns_val_eq c5prog_render hc hrun
    omega

/-- Claim C5 (amended): with the added precondition that the scratch cell
`addr+1` starts at 0 (without it the claim is refuted above),
`set_value(addr, v)` appends a fragment which, executed from the model
head, leaves cell `addr` holding `v mod 256` and the scratch cell
`addr+1` holding 0. -/
theorem c5_set_value_ok (g : BrainfuckGenerator) (addr v : Nat)
    (hv : v ≤ 255) (t : Nat → Fin 256) (o : List (Fin 256))
    (h0 : t (addr + 1) = 0) :
    ∃ d, (g.set_value addr ((v : Nat) : Int)).output = g.output ++ d
      ∧ StrRuns d ⟨t, g.memory_ptr, o⟩
          ⟨tapeSet t addr ((v : Nat) : Fin 256), addr, o⟩
      ∧ (tapeSet t addr ((v : Nat) : Fin 256) addr).val = v % 256
      ∧ tapeSet t addr ((v : Nat) : Fin 256) (addr + 1) = 0 := by
  refine ⟨render (setValueInstrs g.memory_ptr addr ((v : Nat) : Int)),
    set_value_output g addr ((v : Nat) : Int),
    ⟨setValueInstrs g.memory_ptr addr ((v : Nat) : Int), rfl,
      runs_setValue g.memory_ptr addr v hv t o h0⟩, ?_, ?_⟩
  · rw [tapeSet_read_same, Fin.val_cast_of_lt (show v < 256 by omega)]
    omega
  · rw [tapeSet_read_other t addr (addr + 1) _ (by omega)]
    exact h0

/-- Witness for C5: the amended theorem at the fresh generator,
`addr = 0`, `v = 16`, on the all-zero tape. -/
theorem c5_set_value_ok_witness :
    (16 : Nat) ≤ 255 ∧ zeroTape (0 + 1) = 0
    ∧ ∃ d, (BrainfuckGenerator.new.set_value 0 ((16 : Nat) : Int)).output
          = BrainfuckGenerator.new.output ++ d
      ∧ StrRuns d ⟨zeroTape, BrainfuckGenerator.new.memory_ptr, []⟩
          ⟨tapeSet zeroTape 0 ((16 : Nat) : Fin 256), 0, []⟩
      ∧ (tapeSet zeroTape 0 ((16 : Nat) : Fin 256) 0).val = 16 % 256
      ∧ tapeSet zeroTape 0 ((16 : Nat) : Fin 256) (0 + 1) = 0 :=
  ⟨by decide, rfl,
   c5_set_value_ok BrainfuckGenerator.new 0 16 (by decide) zeroTape [] rfl⟩

/-- Claim C6 (confirmed): for distinct cells below the temp allocator's
next address, the `copy_value(src, dst)` fragment run from the model head
leaves `src` unchanged, `dst` holding `src`'s original value and the
fresh temp cell at 0; the fragment of an immediately following second
`copy_value(src, dst)`, run from where the first stopped, again leaves
`src` unchanged (idempotence on the source cell). -/
theorem c6_copy_value_ok (g : BrainfuckGenerator) (src dst : Nat)
    (hsd : src ≠ dst) (hs : src < g.next_temp_addr)
    (hd : dst < g.next_temp_addr)
    (t : Nat → Fin 256) (o : List (Fin 256)) :
    ∃ d1 d2 t1 t2,
      (g.copy_value src dst).output = g.output ++ d1
      ∧ ((g.copy_value src dst).copy_value src dst).output
          = (g.output ++ d1) ++ d2
      ∧ StrRuns d1 ⟨t, g.memory_ptr, o⟩ ⟨t1, g.next_temp_addr, o⟩
      ∧ t1 src = t src ∧ t1 dst = t src ∧ t1 g.next_temp_addr = 0
      ∧ StrRuns d2 ⟨t1, g.next_temp_addr, o⟩ ⟨t2, g.next_temp_addr + 1, o⟩
      ∧ t2 src = t src ∧ t2 dst = t src := by
  have hdt : dst ≠ g.next_temp_addr := by omega
  have hts : g.next_temp_addr ≠ src := by omega
  have hdt2 : dst ≠ g.next_temp_addr + 1 := by omega
  have hts2 : g.next_temp_addr + 1 ≠ src := by omega
  have hr1 := runs_copyValue g.memory_ptr src dst g.next_temp_addr hsd hdt hts t o
  have hr2 := runs_copyValue g.next_temp_addr src dst (g.next_temp_addr + 1)
    hsd hdt2 hts2 (tapeSet (tapeSet t dst (t src)) g.next_temp_addr 0) o
  have h1src : (tapeSet (tapeSet t dst (t src)) g.next_temp_addr 0) src
      = t src := by
    rw [tapeSet_read_other _ _ _ _ (Ne.symm hts),
      tapeSet_read_other _ _ _ _ hsd]
  have h1dst : (tapeSet (tapeSet t dst (t src)) g.next_temp_addr 0) dst
      = t src := by
    rw [tapeSet_read_other _ _ _ _ hdt, tapeSet_read_same]
  refine ⟨render (copyInstrs g.memory_ptr src dst g.next_temp_addr),
    render (copyInstrs g.next_temp_addr src dst (g.next_temp_addr + 1)),
    tapeSet (tapeSet t dst (t src)) g.next_temp_addr 0,
    tapeSet (tapeSet (tapeSet (tapeSet t dst (t src)) g.next_temp_addr 0) dst
        ((tapeSet (tapeSet t dst (t src)) g.next_temp_addr 0) src))
      (g.next_temp_addr + 1) 0,
    ?_, ?_, ⟨_, rfl, hr1⟩, h1src, h1dst, tapeSet_read_same _ _ _,
    ⟨_, rfl, hr2⟩, ?_, ?_⟩
  · simp
  · simp [List.append_assoc]
  · rw [tapeSet_read_other _ _ _ _ (Ne.symm hts2),
      tapeSet_read_other _ _ _ _ hsd]
    exact h1src
  · rw [tapeSet_read_other _ _ _ _ hdt2, tapeSet_read_same]
    exact h1src

/-- Witness for C6: the theorem at the fresh generator, cells 0 and 1, on
the all-zero tape. -/
theorem c6_copy_value_ok_witness :
    ((0 : Nat) ≠ 1 ∧ 0 < BrainfuckGenerator.new.next_temp_addr
      ∧ 1 < BrainfuckGenerator.new.next_temp_addr)
    ∧ ∃ d1 d2 t1 t2,
      (BrainfuckGenerator.new.copy_value 0 1).output
          = BrainfuckGenerator.new.output ++ d1
      ∧ ((BrainfuckGenerator.new.copy_value 0 1).copy_value 0 1).output
          = (BrainfuckGenerator.new.output ++ d1) ++ d2
      ∧ StrRuns d1 ⟨zeroTape, BrainfuckGenerator.new.memory_ptr, []⟩
          ⟨t1, BrainfuckGenerator.new.next_temp_addr, []⟩
      ∧ t1 0 = zeroTape 0 ∧ t1 1 = zeroTape 0
      ∧ t1 BrainfuckGenerator.new.next_temp_addr = 0
      ∧ StrRuns d2 ⟨t1, BrainfuckGenerator.new.next_temp_addr, []⟩
          ⟨t2, BrainfuckGenerator.new.next_temp_addr + 1, []⟩
      ∧ t2 0 = zeroTape 0 ∧ t2 1 = zeroTape 0 :=
  ⟨⟨by decide, by decide, by decide⟩,
   c6_copy_value_ok BrainfuckGenerator.new 0 1 (by decide) (by decide)
     (by decide) zeroTape []⟩

set_option maxRecDepth 10000 in
/-- Claim C7 (refuted; code bug): the expression parser would produce
`Binary(Number 1, Add, Binary(Number 2, Mul, Number 3))` from the token
stream of `1 + 2 * 3` — `factor` does bind tighter than `term` — but the
pipeline never reaches it: the lexer's dispatch has no `*` case, so
`tokenize` fails with a `LexError` at position 6. -/
theorem c7_star_is_lex_error :
    tokenize (String.toList ("1 + 2 * 3"))
      = .error ⟨"Unexpected character: '*'", some 6⟩
    ∧ Parser.expression 50 ⟨c7tokens, 0⟩
      = .ok (.binary (.number 1) .add (.binary (.number 2) .mul (.number 3)),
             ⟨c7tokens, 5⟩) := by
  constructor
  · rw [tokenize]
    rw [tokenize_loop_step_tok _ _ _ _ c7nt1 (by decide)]
    rw [tokenize_loop_step_tok _ _ _ _ c7nt2 (by decide)]
    rw [tokenize_loop_step_tok _ _ _ _ c7nt3 (by decide)]
    exact tokenize_loop_step_err _ _ _ c7nt4
  · decide

set_option maxRecDepth 10000 in
/-- Claim C8, counterexample: `2147483648` consists solely of ASCII
digits — legal per the claim — yet `tokenize` fails on it, because the
digit run's value overflows `i32`. -/
theorem c8_lexer_error_cex :
    (String.toList ("2147483648")).all Char.isDigit = true
    ∧ tokenize (String.toList ("2147483648"))
      = .error ⟨"Invalid number: 2147483648", some 10⟩ :=
  ⟨by decide, c8overflow⟩

/-- Claim C8 (amended, scoped to ASCII sources, on which the embedding
of Rust's character classes is exact): `tokenize` fails exactly when the
scan reaches a state whose current character either opens no token (not
whitespace, not a recognized operator or delimiter, not an ASCII digit,
not an ASCII letter or `_`), or opens a digit run whose value overflows
`i32` — the overflow case is missing from the original claim and refutes
it already on all-digit input.  Every error carries a position, and
identifier tokens match `[A-Za-z_][A-Za-z0-9_]*`.  Outside ASCII the
original claim misreads the lexer — Rust's `char::is_alphabetic` is the
Unicode `Alphabetic` property, so non-ASCII letters begin identifiers —
and this theorem asserts nothing there. -/
theorem c8_lexer_errors (source : List Char) (e : TranspilerError)
    (hascii : ∀ c ∈ source, c.toNat < 128) :
    (tokenize source = .error e ↔
      ∃ lx1, Reaches (Lexer.new source) lx1 ∧ lx1.next_token = .error e)
    ∧ (∀ lx : Lexer, (∀ c ∈ lx.rest, c.toNat < 128) →
        ((∃ e1, lx.next_token = .error e1) ↔ BadAt lx))
    ∧ (tokenize source = .error e → e.position ≠ none)
    ∧ ∀ (lx : Lexer) (name : String) (lx1 : Lexer),
        (∀ c ∈ lx.rest, c.toNat < 128) →
        lx.next_token = .ok (some (.Identifier name), lx1) →
        ∃ c cs, name = String.mk (c :: cs)
          ∧ (rustIsAlphabetic c = true ∨ c = '_')
          ∧ ∀ x ∈ cs, rustIsAlphanumeric x = true ∨ x = '_' := by
  refine ⟨tokenize_loop_error (Lexer.new source) [] e,
    fun lx _ => next_token_error_iff lx, ?_,
    fun lx name lx1 _ h => next_token_identifier_shape lx name lx1 h⟩
  intro h
  obtain ⟨lx1, -, he⟩ := (tokenize_loop_error (Lexer.new source) [] e).mp h
  exact next_token_error_position lx1 e he

/-- Witness for C8: the characterization applied to the ASCII source
`@`. -/
theorem c8_lexer_errors_witness :
    (∀ c ∈ String.toList ("@"), c.toNat < 128)
    ∧ ∃ lx1, Reaches (Lexer.new (String.toList ("@"))) lx1
        ∧ lx1.next_token = .error ⟨"Unexpected character: '@'", some 0⟩ :=
  ⟨by decide,
   ((c8_lexer_errors (String.toList ("@"))
      ⟨"Unexpected character: '@'", some 0⟩ (by decide)).1).mp c8at⟩

/-- Claim C9 (confirmed): code generation never reports an error —
`generate` always returns `Ok` with the visitor's output; evaluating a
read of an unbound variable emits code that allocates a fresh temp, sets
it to 0 and uses its address; and lowering an `Assign` to an unbound name
leaves the generator (output and variables map included) unchanged. -/
theorem c9_no_codegen_errors :
    (∀ program : Program,
      (BrainfuckGenerator.new.generate program).1 = .ok (genOutput program))
    ∧ (∀ (g : BrainfuckGenerator) (name : String) (value : Expr),
        varGet g.vars name = none → g.visit_stmt (.assign name value) = g)
    ∧ ∀ (g : BrainfuckGenerator) (name : String),
        varGet g.vars name = none →
        g.evaluate_expression (.var name)
          = (g.next_temp_addr,
             ((g.get_temp_addr).2).set_value g.next_temp_addr 0) := by
  refine ⟨fun program => rfl, ?_, ?_⟩
  · intro g name value h
    rw [BrainfuckGenerator.visit_stmt, h]
  · intro g name h
    rw [BrainfuckGenerator.evaluate_expression, h]
    rfl

/-- Witness for C9: the unbound-name clauses at the fresh generator and
the name `q`. -/
theorem c9_no_codegen_errors_witness :
    varGet BrainfuckGenerator.new.vars ("q") = none
    ∧ BrainfuckGenerator.new.visit_stmt (.assign ("q") (.number 1))
        = BrainfuckGenerator.new
    ∧ BrainfuckGenerator.new.evaluate_expression (.var ("q"))
        = (BrainfuckGenerator.new.next_temp_addr,
           ((BrainfuckGenerator.new.get_temp_addr).2).set_value
             BrainfuckGenerator.new.next_temp_addr 0) :=
  ⟨rfl, c9_no_codegen_errors.2.1 _ ("q") (.number 1) rfl,
   c9_no_codegen_errors.2.2 _ ("q") rfl⟩

/-- Claim C10 (confirmed): for `if x > r { body }` with `x` bound at cell
`a`, `evaluate_condition` returns `a` itself and emits nothing; the
lowered If wraps the body in `[ ... [-] ]` on that very cell, so whenever
the If executes with `x` nonzero (the body running once, by hypothesis),
cell `a` ends at 0 — the If statement destroys the condition variable. -/
theorem c10_if_greater_clears_var (g : BrainfuckGenerator) (x : String)
    (r : Expr) (body : List Stmt) (a : Nat) (qb : List BfInstr)
    (t t2 : Nat → Fin 256) (o o2 : List (Fin 256))
    (hx : varGet g.vars x = some a)
    (hnz : t a ≠ 0)
    (hout : (BrainfuckGenerator.visit_stmts ((g.move_to a).pushStr ['[']) body).output
        = ((g.move_to a).pushStr ['[']).output ++ render qb)
    (hbody : Runs qb ⟨t, a, o⟩
        ⟨t2, (BrainfuckGenerator.visit_stmts ((g.move_to a).pushStr ['[']) body).memory_ptr, o2⟩) :
    g.evaluate_condition (.binary (.var x) .greater r) = (a, g)
    ∧ ∃ d, (g.visit_stmt (.ifStmt (.binary (.var x) .greater r) body)).output
          = g.output ++ d
      ∧ StrRuns d ⟨t, g.memory_ptr, o⟩ ⟨tapeSet t2 a 0, a, o2⟩
      ∧ tapeSet t2 a 0 a = 0 := by
  have hcond : g.evaluate_condition (.binary (.var x) .greater r) = (a, g) := by
    rw [BrainfuckGenerator.evaluate_condition,
      BrainfuckGenerator.evaluate_expression, hx]
  refine ⟨hcond, ?_⟩
  set g3 := BrainfuckGenerator.visit_stmts ((g.move_to a).pushStr ['[']) body
    with hg3
  refine ⟨render (moveInstrs g.memory_ptr a
      ++ [.loop (qb ++ (moveInstrs g3.memory_ptr a ++ [.loop [.minus]]))]),
    ?_, ?_, tapeSet_read_same _ _ _⟩
  · rw [BrainfuckGenerator.visit_stmt, hcond]
    simp [← hg3, hout, render_append, render, List.append_assoc]
  · refine ⟨moveInstrs g.memory_ptr a
      ++ [.loop (qb ++ (moveInstrs g3.memory_ptr a ++ [.loop [.minus]]))],
      rfl, ?_⟩
    refine Runs.append (runs_move g.memory_ptr a t o) ?_
    refine @runs_loop_iter _ _ _ ⟨tapeSet t2 a 0, a, o2⟩ _ hnz ?_ ?_
    · exact Runs.append hbody (Runs.append (runs_move g3.memory_ptr a t2 o2)
        (runs_clear (t2 a).val t2 a o2 rfl))
    · exact runs_loop_exit (tapeSet_read_same t2 a 0) (runs_nil _)

/-- Witness for C10: the theorem at a generator binding `x` to cell 0,
with an empty body, on a tape where cell 0 holds 5. -/
theorem c10_if_greater_clears_var_witness :
    varGet c10g.vars ("x") = some 0
    ∧ c10t 0 ≠ 0
    ∧ (c10g.evaluate_condition (.binary (.var ("x")) .greater (.number 0))
        = (0, c10g)
      ∧ ∃ d, (c10g.visit_stmt
            (.ifStmt (.binary (.var ("x")) .greater (.number 0)) [])).output
          = c10g.output ++ d
        ∧ StrRuns d ⟨c10t, c10g.memory_ptr, []⟩ ⟨tapeSet c10t 0 0, 0, []⟩
        ∧ tapeSet c10t 0 0 0 = 0) :=
  ⟨by decide, by decide,
   c10_if_greater_clears_var c10g ("x") (.number 0) [] 0 [] c10t c10t [] []
     (by decide) (by decide)
     (by rw [BrainfuckGenerator.visit_stmts]
         simp [render])
     (by rw [show BrainfuckGenerator.visit_stmts
              ((c10g.move_to 0).pushStr ['[']) []
              = (c10g.move_to 0).pushStr ['['] from
            by rw [BrainfuckGenerator.visit_stmts]]
         rw [show ((c10g.move_to 0).pushStr ['[']).memory_ptr = 0 from by simp]
         exact runs_nil _)⟩

end RustedBrains
